import Mathlib

/-!
Verification of the MCQ extraction / answer-resolution core.

This file gives a shallow embedding, in Lean 4, of the core logic of the
MCQ-solver repository:

* `Highlighter.findMatchingOption` and `Highlighter.levenshteinDistance`
  (validator.js),
* `AIService._matchAnswerToOption`, `AIService._fallbackParse` and the
  argument check of `AIService.answerMCQ` (ai-service.js),
* `MCQExtractor` (radio / list / div / table / platform strategies,
  `cleanOptionText`, `deduplicate`, `extractAll`),
* `MCQParser` (`parse`, `parseNumberedQuestions`, `parseQPrefixedQuestions`,
  `parseBlockQuestions`, `parseQuestionBlock`, `cleanOption`, `deduplicate`).

Modelling conventions:

* JavaScript strings are modelled as Lean `String` / `List Char`; the
  JavaScript string primitives used by the code (`toLowerCase`, `trim`,
  `includes`, regular-expression tests and replacements) are implemented
  below as executable functions on `List Char`.  `toLowerCase` is modelled
  ASCII-only (all text the code manipulates is compared case-insensitively
  only on ASCII letters), and the `\s` character class is modelled by the
  ASCII whitespace characters.
* DOM nodes are modelled by the rose tree `Dom`; the handful of CSS
  selector queries and tree navigations the code performs are implemented
  as explicit tree traversals.  DOM element references stored in the
  extracted objects (`element`, `questionElement`) are identified by their
  tree path where identity matters and omitted from the result records
  (they are opaque handles, irrelevant to the extracted data).
* Exceptions are modelled with `Except`: the strategy loops of
  `MCQExtractor.extractAll` and `MCQParser.parse` are given a list of
  strategy outcomes, an `Except.error` outcome standing for a strategy
  that threw.
* The floating-point comparison `bestScore < maxLen * 0.4` of the fuzzy
  matching tier is modelled by the exact rational comparison
  `5 * bestScore < 2 * maxLen`; for the integer operands involved the
  IEEE double computation decides exactly as the rational one.
-/

/-! ## Character and string primitives (JavaScript semantics) -/

/-- ASCII whitespace, modelling the JavaScript `\s` class and `trim`. -/
def isWsChar (c : Char) : Bool :=
  c = ' ' ∨ c = '\t' ∨ c = '\n' ∨ c = '\r' ∨ c = '\x0b' ∨ c = '\x0c'

/-- ASCII lower-casing of one character, modelling `toLowerCase`. -/
def lowChar (c : Char) : Char :=
  if 65 ≤ c.toNat ∧ c.toNat ≤ 90 then Char.ofNat (c.toNat + 32) else c

/-- ASCII upper-casing of one character, modelling `toUpperCase`. -/
def upChar (c : Char) : Char :=
  if 97 ≤ c.toNat ∧ c.toNat ≤ 122 then Char.ofNat (c.toNat - 32) else c

def isDigitChar (c : Char) : Bool := '0' ≤ c ∧ c ≤ '9'

def isAsciiLetter (c : Char) : Bool :=
  ('A' ≤ c ∧ c ≤ 'Z') ∨ ('a' ≤ c ∧ c ≤ 'z')

/-- Word characters for the JavaScript `\b` boundary: `[A-Za-z0-9_]`. -/
def isWordChar (c : Char) : Bool := isAsciiLetter c ∨ isDigitChar c ∨ c = '_'

/-- Strip leading and trailing whitespace, modelling `String.prototype.trim`. -/
def trimChars (l : List Char) : List Char :=
  ((l.dropWhile isWsChar).reverse.dropWhile isWsChar).reverse

/-- Collapse every whitespace run to a single blank, modelling
`replace(/\s+/g, ' ')`; the flag records whether the previous character
was whitespace. -/
def collapseGo : Bool → List Char → List Char
  | _, [] => []
  | prevWs, c :: cs =>
    if isWsChar c then
      if prevWs then collapseGo true cs else ' ' :: collapseGo true cs
    else c :: collapseGo false cs

def collapseWs (l : List Char) : List Char := collapseGo false l

/-- Does `hay` begin with `needle`? -/
def startsL : List Char → List Char → Bool
  | [], _ => true
  | _ :: _, [] => false
  | a :: as, b :: bs => a = b && startsL as bs

/-- Substring test, modelling `String.prototype.includes hay.includes(needle)`. -/
def containsL : List Char → List Char → Bool
  | [], needle => needle.isEmpty
  | c :: cs, needle => startsL needle (c :: cs) || containsL cs needle

def jsLower (s : String) : String := ⟨s.data.map lowChar⟩

def jsTrim (s : String) : String := ⟨trimChars s.data⟩

/-- The normalisation `s.toLowerCase().trim()` used throughout the resolver. -/
def jsClean (s : String) : String := jsTrim (jsLower s)

def jsIncludes (hay needle : String) : Bool := containsL hay.data needle.data

/-! ## Edit distance

`editDistance` is the classic unit-cost insert/delete/substitute edit
distance, written as the textbook recursion on the strings (the
specification-side definition of the fuzzy tier's distance).  It is
formulated with the auxiliary `edAux` so that the recursion is structural
and hence kernel-computable. -/

/-- Computes `editDistance (x :: xs) ys` given `exs = editDistance xs`. -/
def edAux (x : Char) (exs : List Char → Nat) : List Char → Nat
  | [] => exs [] + 1
  | y :: ys =>
    if x = y then exs ys
    else 1 + min (exs ys) (min (edAux x exs ys) (exs (y :: ys)))

/-- Classic unit-cost edit distance between two character lists. -/
def editDistance : List Char → List Char → Nat
  | [], ys => ys.length
  | x :: xs, ys => edAux x (editDistance xs) ys

/-! `Highlighter.levenshteinDistance` (validator.js, lines 252-278) fills the
Wagner-Fischer matrix `matrix[i][j]` (`i` indexing prefixes of `b`, `j`
prefixes of `a`) row by row.  `rowStep` produces row `i` from row `i - 1`:
`diag`, `up` walk along the previous row while `left` is the entry just
written; the three candidates appear in the source order substitution /
insertion / deletion. -/

def rowStep (bc : Char) : List Nat → List Char → Nat → List Nat
  | diag :: up :: ps, ac :: as, left =>
    let cur : Nat := if bc = ac then diag else min (diag + 1) (min (left + 1) (up + 1))
    cur :: rowStep bc (up :: ps) as cur
  | _, _, _ => []

namespace Highlighter

/-- One iteration of the outer `for` loop over `b`: push row `i`, whose
leading entry `matrix[i][0]` is `i`. -/
def levFold (a : List Char) (st : List Nat × Nat) (bc : Char) : List Nat × Nat :=
  let i := st.2 + 1
  (i :: rowStep bc st.1 a i, i)

/-- Embeds `Highlighter.levenshteinDistance(a, b)`: the DP matrix has rows
indexed by prefixes of `b` and columns by prefixes of `a` (row 0 being
`0, 1, ..., a.length`); the result is `matrix[b.length][a.length]`. -/
def levenshteinDistance (a b : List Char) : Nat :=
  ((b.foldl (levFold a) (List.range (a.length + 1), 0)).1).getLastD 0

/-- An option object as consumed by `Highlighter.findMatchingOption`; the
`element` DOM handle is omitted (it carries no data relevant to matching). -/
structure HOption where
  text : String
deriving DecidableEq, Repr

/-- The tier of the resolver that produced a match (`ResolvedAnswer.method`
in the specification's data model). -/
inductive Method where
  | exact
  | substring
  | letter
  | fuzzy
deriving DecidableEq, Repr

/-- Separator class `[.\):\s]` of the option-letter patterns. -/
def sepChar (c : Char) : Bool := c = '.' ∨ c = ')' ∨ c = ':' ∨ isWsChar c

/-- Is `c` one of `A`-`D` up to case (the class `[A-D]` with the `i` flag)? -/
def isAD (c : Char) : Bool := 'A' ≤ upChar c ∧ upChar c ≤ 'D'

/-- Models `answer.match(/^([A-D])[.\):\s]/i)` followed by
`letter.charCodeAt(0) - 'A'.charCodeAt(0)`: the zero-based index encoded by
a leading option letter, if the answer has one. -/
def letterIndex (answer : String) : Option Nat :=
  match answer.data with
  | c :: d :: _ => if isAD c ∧ sepChar d then some ((upChar c).toNat - 65) else none
  | _ => none

/-- Exact tier: first option whose lower-cased trimmed text equals the
cleaned answer. -/
def exactTier (options : List HOption) (ca : String) : Option HOption :=
  options.find? (fun o => jsClean o.text = ca)

/-- Partial tier: first option whose cleaned text contains, or is contained
in, the cleaned answer. -/
def substringTier (options : List HOption) (ca : String) : Option HOption :=
  options.find? (fun o => jsIncludes (jsClean o.text) ca || jsIncludes ca (jsClean o.text))

/-- Letter tier: option at the letter-coded index, when in bounds. -/
def letterTier (options : List HOption) (answer : String) : Option HOption :=
  match letterIndex answer with
  | some i => options.get? i
  | none => none

/-- Distance computed inside the fuzzy loop:
`levenshteinDistance(cleanAnswer, option.text.toLowerCase().trim())`. -/
def fuzzyDist (ca : List Char) (o : HOption) : Nat :=
  levenshteinDistance ca (jsClean o.text).data

/-- One iteration of the fuzzy loop: keep the incumbent unless the new
distance is strictly smaller (`none` plays the role of the initial
`bestScore = Infinity`). -/
def fuzzyStep (ca : List Char) (best : Option (HOption × Nat)) (o : HOption) :
    Option (HOption × Nat) :=
  let d := fuzzyDist ca o
  match best with
  | none => some (o, d)
  | some (bo, bs) => if d < bs then some (o, d) else some (bo, bs)

/-- The fuzzy loop of `findMatchingOption`: fold the options, keeping the
first option of strictly smallest `levenshteinDistance` to the cleaned
answer. -/
def fuzzyScan (ca : List Char) (options : List HOption) : Option (HOption × Nat) :=
  options.foldl (fuzzyStep ca) none

/-- Fuzzy tier: accept the best option iff
`bestScore < Math.max(cleanAnswer.length, bestMatch.text.length) * 0.4`,
modelled exactly as `5 * bestScore < 2 * maxLen`. -/
def fuzzyTier (options : List HOption) (ca : String) : Option HOption :=
  match fuzzyScan ca.data options with
  | some (bo, bs) => if 5 * bs < 2 * max ca.length bo.text.length then some bo else none
  | none => none

/-- Embeds `Highlighter.findMatchingOption` (validator.js, lines 190-244),
additionally recording which tier produced the returned option. -/
def findMatchingOptionM (options : List HOption) (answer : String) :
    Option (HOption × Method) :=
  let ca := jsClean answer
  match exactTier options ca with
  | some o => some (o, Method.exact)
  | none =>
    match substringTier options ca with
    | some o => some (o, Method.substring)
    | none =>
      match letterTier options answer with
      | some o => some (o, Method.letter)
      | none => (fuzzyTier options ca).map (fun o => (o, Method.fuzzy))

/-- The source function returns just the option object. -/
def findMatchingOption (options : List HOption) (answer : String) : Option HOption :=
  (findMatchingOptionM options answer).map Prod.fst

end Highlighter

namespace AIService

open Highlighter (Method sepChar isAD letterIndex)

/-- Tiers of `AIService._matchAnswerToOption` (ai-service.js, lines 234-268);
options here are plain strings.  Both `includes` loops are tagged
`Method.substring`. -/
def matchAnswerToOptionM (answer : String) (options : List String) :
    Option (String × Method) :=
  let ca := jsClean answer
  match options.find? (fun o => jsClean o = ca) with
  | some o => some (o, Method.exact)
  | none =>
    match options.find? (fun o => jsIncludes ca (jsClean o)) with
    | some o => some (o, Method.substring)
    | none =>
      match options.find? (fun o => jsIncludes (jsClean o) ca) with
      | some o => some (o, Method.substring)
      | none =>
        match letterIndex answer with
        | some i => (options.get? i).map (fun o => (o, Method.letter))
        | none => none

/-- The source function returns just the matched option string (or null). -/
def matchAnswerToOption (answer : String) (options : List String) : Option String :=
  (matchAnswerToOptionM answer options).map Prod.fst

/-- The argument check at the top of `AIService.answerMCQ` (ai-service.js,
lines 40-43): an empty question string or an empty/missing option array is
rejected with a thrown `Error`. -/
def answerMCQCheck (question : String) (options : List String) : Except String Unit :=
  if question = "" ∨ options = [] then Except.error "Invalid question or options"
  else Except.ok ()

/-- Result record of `_fallbackParse`; `answer` is an `Option` because
`options[0]` on an empty array is `undefined` in JavaScript. -/
structure AIAnswer where
  answer : Option String
  confidence : Nat
  explanation : String
deriving DecidableEq, Repr

/-- Models `text.match(/\b([A-D])[.\):\s]/i)`: index encoded by the first
option letter preceded by a word boundary and followed by a separator.  The
flag carries whether the previous character was a word character. -/
def letterScanGo : Bool → List Char → Option Nat
  | _, [] => none
  | prevW, c :: cs =>
    if !prevW && isAD c && (match cs with | d :: _ => sepChar d | [] => false)
    then some ((upChar c).toNat - 65)
    else letterScanGo (isWordChar c) cs

def letterScan (l : List Char) : Option Nat := letterScanGo false l

/-- The second and third stages of `_fallbackParse`: the option-text
`includes` loop, then the first-option last resort. -/
def fallbackRest (text : String) (options : List String) : AIAnswer :=
  match options.find? (fun o => jsIncludes (jsLower text) (jsLower o)) with
  | some o => ⟨some o, 40, "Matched from response text"⟩
  | none => ⟨options.get? 0, 20, "Unable to parse AI response reliably"⟩

/-- Embeds `AIService._fallbackParse` (ai-service.js, lines 195-226): a
letter match whose index is in bounds wins; otherwise fall through to the
remaining stages. -/
def fallbackParse (text : String) (options : List String) : AIAnswer :=
  match letterScan text.data with
  | some i =>
    if i < options.length then ⟨options.get? i, 50, "Extracted from unstructured response"⟩
    else fallbackRest text options
  | none => fallbackRest text options

end AIService

/-! ## Shared strategy loop and deduplication

Both `MCQExtractor.extractAll` and `MCQParser.parse` run their strategies in
a `for` loop whose body is wrapped in `try`/`catch`: a strategy outcome is
either a candidate list or a thrown error; errors are logged and contribute
nothing, non-empty lists are appended.  `deduplicate` is the identical
key-on-question filter both objects define. -/

/-- One iteration of the strategy loop: a successful non-empty candidate
list is appended (`mcqs.push(...extracted)`); an empty list or a caught
error contributes nothing. -/
def strategyStep {α : Type} (acc : List α) (r : Except String (List α)) : List α :=
  match r with
  | Except.ok l => if l.length > 0 then acc ++ l else acc
  | Except.error _ => acc

def strategyFold {α : Type} (results : List (Except String (List α))) : List α :=
  results.foldl strategyStep []

/-- The `seen`-set filter of `deduplicate`, with the mutable `Set` made an
explicit accumulator. -/
def dedupGo {α : Type} (key : α → String) (seen : List String) : List α → List α
  | [] => []
  | m :: ms =>
    if key m ∈ seen then dedupGo key seen ms
    else m :: dedupGo key (key m :: seen) ms

/-- Embeds `deduplicate(mcqs)` of MCQExtractor / MCQParser, generic in the
record type; both sources key on `mcq.question.toLowerCase().trim()`. -/
def deduplicate {α : Type} (key : α → String) (l : List α) : List α :=
  dedupGo key [] l

/-! ## MCQParser (OCR-text parsing) -/

namespace MCQParser

/-- Parsed MCQ record: `{question, options}`, plus the `number` field that
`parseNumberedQuestions` / `parseQPrefixedQuestions` assign afterwards
(absent = JavaScript `undefined`). -/
structure PMcq where
  question : String
  options : List String
  number : Option Nat := none
deriving DecidableEq, Repr

def interrogatives : List String :=
  ["what", "which", "who", "where", "when", "why", "how"]

def instructionWords : List String :=
  ["select", "choose", "identify", "find", "determine", "calculate"]

def copulaWords : List String :=
  ["is", "are", "was", "were", "will", "would", "should", "can", "could"]

/-- Does the (lower-cased) text begin with one of the given words?  Models
an anchored alternation such as `^(what|which|...)` with the `i` flag (no
trailing word boundary: a bare prefix suffices). -/
def startsAny (l : List Char) (ws : List String) : Bool :=
  ws.any (fun w => startsL w.data l)

/-- Does one of the copular/modal words occur here, followed by whitespace?
One alternative of the unanchored `(is|are|...)\s+` test. -/
def copulaAt (l : List Char) : Bool :=
  copulaWords.any (fun w =>
    startsL w.data l && (match l.drop w.data.length with
      | d :: _ => isWsChar d
      | [] => false))

def hasCopula : List Char → Bool
  | [] => false
  | c :: cs => copulaAt (c :: cs) || hasCopula cs

/-- Embeds `MCQParser.looksLikeQuestion` (part_003, lines 617-628): length
at least 10 and any of: contains `?`, starts with an interrogative, starts
with an instruction word, contains a copular/modal verb plus whitespace. -/
def looksLikeQuestion (text : String) : Bool :=
  if text.data.length < 10 then false
  else
    let l := (jsLower text).data
    text.data.contains '?' || startsAny l interrogatives ||
      startsAny l instructionWords || hasCopula l

/-- Embeds `MCQParser.looksLikeOption` (part_003, lines 635-646): the four
leading-marker patterns `^[A-Z][.\):\s]` (any case), `^\d+[.\):\s]`,
`^\([A-Z]\)`, `^\(\d+\)`. -/
def looksLikeOption (line : String) : Bool :=
  (match line.data with
   | c :: d :: _ => isAsciiLetter c && Highlighter.sepChar d
   | _ => false) ||
  (let ds := line.data.takeWhile isDigitChar
   !ds.isEmpty && (match line.data.drop ds.length with
     | d :: _ => Highlighter.sepChar d
     | [] => false)) ||
  (match line.data with
   | '(' :: c :: ')' :: _ => isAsciiLetter c
   | _ => false) ||
  (match line.data with
   | '(' :: rest =>
     (let ds := rest.takeWhile isDigitChar
      !ds.isEmpty && (match rest.drop ds.length with
        | ')' :: _ => true
        | _ => false))
   | _ => false)

/-- One `replace(/^[A-Z][.\):\s]+/i, '')`. -/
def stripLetterMark (l : List Char) : List Char :=
  match l with
  | c :: rest =>
    if isAsciiLetter c && !(rest.takeWhile Highlighter.sepChar).isEmpty
    then rest.dropWhile Highlighter.sepChar
    else l
  | [] => []

/-- One `replace(/^\d+[.\):\s]+/, '')`. -/
def stripDigitsMark (l : List Char) : List Char :=
  let ds := l.takeWhile isDigitChar
  if ds.isEmpty then l
  else
    let rest := l.drop ds.length
    if (rest.takeWhile Highlighter.sepChar).isEmpty then l
    else rest.dropWhile Highlighter.sepChar

/-- One `replace(/^\([A-Z]\)\s*/i, '')`. -/
def stripParenLetter (l : List Char) : List Char :=
  match l with
  | '(' :: c :: ')' :: rest =>
    if isAsciiLetter c then rest.dropWhile isWsChar else l
  | _ => l

/-- One `replace(/^\(\d+\)\s*/, '')`. -/
def stripParenDigit (l : List Char) : List Char :=
  match l with
  | '(' :: rest =>
    let ds := rest.takeWhile isDigitChar
    if ds.isEmpty then l
    else match rest.drop ds.length with
      | ')' :: r => r.dropWhile isWsChar
      | _ => l
  | _ => l

/-- Embeds `MCQParser.cleanOption` (part_003, lines 653-660): the four
prefix `replace`s applied in sequence, then `trim()`. -/
def cleanOption (line : String) : String :=
  ⟨trimChars (stripParenDigit (stripParenLetter (stripDigitsMark (stripLetterMark line.data))))⟩

/-- Split on `'\n'`. -/
def splitOnNl : List Char → List (List Char)
  | [] => [[]]
  | c :: cs =>
    if c = '\n' then [] :: splitOnNl cs
    else match splitOnNl cs with
      | h :: t => (c :: h) :: t
      | [] => [[c]]

/-- Space-joining of the leading question lines
(`questionText += (questionText ? ' ' : '') + line`). -/
def joinSpace : List (List Char) → List Char
  | [] => []
  | [l] => l
  | l :: ls => l ++ ' ' :: joinSpace ls

/-- Embeds `MCQParser.parseQuestionBlock` (part_003, lines 561-610). -/
def parseQuestionBlock (block : String) : Option PMcq :=
  let lines := ((splitOnNl block.data).map trimChars).filter (fun l => l.length > 0)
  if lines.length < 3 then none
  else
    match lines.findIdx? (fun l => looksLikeOption ⟨l⟩) with
    | none => none
    | some k =>
      let questionText := joinSpace (lines.take k)
      if questionText.isEmpty ∨ k = 0 ∨ lines.length - 1 ≤ k then none
      else
        let options := ((lines.drop k).filter (fun l => looksLikeOption ⟨l⟩)).filterMap
          (fun l => let o := cleanOption ⟨l⟩; if o = "" then none else some o)
        if options.length < 2 ∨ 6 < options.length then none
        else some ⟨⟨trimChars questionText⟩, options, none⟩

/-- Value of a digit run, modelling `parseInt` on the captured `\d+`. -/
def natOfDigits (ds : List Char) : Nat :=
  ds.foldl (fun n c => 10 * n + (c.toNat - 48)) 0

/-- Leading `(\d+)[.\)]` of the numbered-question pattern. -/
def markerNum (l : List Char) : Option (Nat × List Char) :=
  let ds := l.takeWhile isDigitChar
  if ds.isEmpty then none
  else match l.drop ds.length with
    | c :: rest => if c = '.' ∨ c = ')' then some (natOfDigits ds, rest) else none
    | [] => none

/-- Leading `Q(\d+)` (case-insensitive) of the Q-prefixed pattern. -/
def markerQ (l : List Char) : Option (Nat × List Char) :=
  match l with
  | c :: rest =>
    if lowChar c = 'q' then
      let ds := rest.takeWhile isDigitChar
      if ds.isEmpty then none else some (natOfDigits ds, rest.drop ds.length)
    else none
  | [] => none

def allNl : List Char → Bool
  | [] => true
  | c :: cs => c = '\n' && allNl cs

/-- The lookahead `(?=\n\d+[.\)]|\n*$)` terminating a lazy block capture. -/
def stopNum (s : List Char) : Bool :=
  (match s with
   | '\n' :: t => (markerNum t).isSome
   | _ => false) || allNl s

/-- The lookahead `(?=\nQ\d+|\n*$)`. -/
def stopQ (s : List Char) : Bool :=
  (match s with
   | '\n' :: t => (markerQ t).isSome
   | _ => false) || allNl s

/-- Lazy capture `(.+?)` (with the `s` flag) up to the given lookahead: at
least one character, then stop at the first position whose remainder
satisfies `stop`.  Returns the captured block and the remaining suffix. -/
def takeBlockGo (stop : List Char → Bool) : Nat → List Char → List Char × List Char
  | 0, s => ([], s)
  | _ + 1, [] => ([], [])
  | fuel + 1, c :: cs =>
    if stop cs then ([c], cs)
    else
      let (a, r) := takeBlockGo stop fuel cs
      (c :: a, r)

/-- Shared scanner for the two `matchAll` loops: find the next
`(?:^|\n)`-anchored marker, skip its separator run, capture the lazy block,
and continue after the lookahead position.  `atStart` records whether the
current position is the string start or just after a `'\n'`; the fuel is
one per character of the text. -/
def scanQuestions (marker : List Char → Option (Nat × List Char))
    (skipSep : List Char → List Char) (stop : List Char → Bool) :
    Nat → Bool → List Char → List (Nat × List Char)
  | 0, _, _ => []
  | _ + 1, _, [] => []
  | fuel + 1, atStart, c :: cs =>
    if atStart then
      match marker (c :: cs) with
      | some (n, rest) =>
        let body := skipSep rest
        let (content, rst) := takeBlockGo stop body.length body
        if content.isEmpty then scanQuestions marker skipSep stop fuel (c = '\n') cs
        else
          (n, content) :: (match rst with
            | '\n' :: t => scanQuestions marker skipSep stop fuel true t
            | _ => [])
      | none => scanQuestions marker skipSep stop fuel (c = '\n') cs
    else scanQuestions marker skipSep stop fuel (c = '\n') cs

/-- Embeds `MCQParser.parseNumberedQuestions` (part_003, lines 487-506):
`/(?:^|\n)(\d+)[.\)]\s*(.+?)(?=\n\d+[.\)]|\n*$)/gs`, each captured block
parsed by `parseQuestionBlock` and given `number = parseInt(num)`. -/
def parseNumberedQuestions (text : String) : List PMcq :=
  (scanQuestions markerNum (fun l => l.dropWhile isWsChar) stopNum
      (text.data.length + 1) true text.data).filterMap
    (fun p => (parseQuestionBlock ⟨p.2⟩).map (fun m => { m with number := some p.1 }))

/-- Embeds `MCQParser.parseQPrefixedQuestions` (part_003, lines 513-531):
`/(?:^|\n)Q(\d+)[:\s]*(.+?)(?=\nQ\d+|\n*$)/gis`. -/
def parseQPrefixedQuestions (text : String) : List PMcq :=
  (scanQuestions markerQ (fun l => l.dropWhile (fun c => c = ':' || isWsChar c)) stopQ
      (text.data.length + 1) true text.data).filterMap
    (fun p => (parseQuestionBlock ⟨p.2⟩).map (fun m => { m with number := some p.1 }))

/-- Split on blank lines (`text.split(/\n{2,}/)`); `sbGo` accumulates the
current piece reversed, `skipping` meaning inside a separator run. -/
def sbGo (skipping : Bool) (cur : List Char) : List Char → List (List Char)
  | [] => [cur.reverse]
  | c :: rest =>
    if skipping then
      if c = '\n' then sbGo true cur rest
      else sbGo false [c] rest
    else if c = '\n' then
      match rest with
      | '\n' :: _ => cur.reverse :: sbGo true [] rest
      | _ => sbGo false (c :: cur) rest
    else sbGo false (c :: cur) rest

def splitBlank (l : List Char) : List (List Char) := sbGo false [] l

/-- Embeds `MCQParser.parseBlockQuestions` (part_003, lines 538-554):
blank-line-delimited blocks that look like questions, parsed by
`parseQuestionBlock` (no `number` assigned). -/
def parseBlockQuestions (text : String) : List PMcq :=
  (splitBlank text.data).filterMap
    (fun b => if looksLikeQuestion ⟨b⟩ then parseQuestionBlock ⟨b⟩ else none)

/-- Embeds `MCQParser.parse` (part_003, lines 453-480): empty input short
circuit, the three strategies behind the `try`/`catch` loop, then
`deduplicate`. -/
def parse (text : String) : List PMcq :=
  if (jsTrim text).data.length = 0 then []
  else
    deduplicate (fun m => jsClean m.question)
      (strategyFold
        [Except.ok (parseNumberedQuestions text),
         Except.ok (parseQPrefixedQuestions text),
         Except.ok (parseBlockQuestions text)])

end MCQParser

/-! ## DOM model

A document tree: element nodes with a tag, attributes, own text and child
elements.  `DomList` is a bespoke list so that all tree recursions are
structural (and hence kernel-computable).  Text content of a node is its
own text followed by its descendants' (text-node interleaving finer than
this is not observable by any of the embedded extractor code paths). -/

mutual
inductive Dom where
  | node (tag : String) (attrs : List (String × String)) (text : String) (children : DomList)
inductive DomList where
  | nil
  | cons (hd : Dom) (tl : DomList)
end

def Dom.tag : Dom → String
  | .node t _ _ _ => t

def Dom.attrs : Dom → List (String × String)
  | .node _ a _ _ => a

def Dom.ownText : Dom → String
  | .node _ _ x _ => x

def Dom.children : Dom → DomList
  | .node _ _ _ cs => cs

def Dom.attr? (d : Dom) (name : String) : Option String :=
  (d.attrs.find? (fun p => p.1 = name)).map Prod.snd

/-- Attribute with a default, modelling DOM properties such as `input.name`
that are the empty string when the attribute is missing. -/
def Dom.attrD (d : Dom) (name fallback : String) : String :=
  (d.attr? name).getD fallback

def DomList.ofList : List Dom → DomList
  | [] => .nil
  | d :: ds => .cons d (DomList.ofList ds)

/-- Element constructor helper. -/
def el (tag : String) (attrs : List (String × String)) (text : String)
    (children : List Dom) : Dom :=
  .node tag attrs text (DomList.ofList children)

mutual
def Dom.textContentL : Dom → List Char
  | .node _ _ x cs => x.data ++ DomList.textContentL cs
def DomList.textContentL : DomList → List Char
  | .nil => []
  | .cons d ds => d.textContentL ++ DomList.textContentL ds
end

mutual
/-- Text content with `script`/`style` descendants removed, as produced by
the clone-and-strip step of `extractTextContent`. -/
def Dom.tcns : Dom → List Char
  | .node _ _ x cs => x.data ++ DomList.tcns cs
def DomList.tcns : DomList → List Char
  | .nil => []
  | .cons d ds =>
    (if d.tag = "script" ∨ d.tag = "style" then [] else d.tcns) ++ DomList.tcns ds
end

/-- Raw `element.textContent` as a string. -/
def Dom.textContent (d : Dom) : String := ⟨d.textContentL⟩

/-- Paths address nodes from the root by child indices. -/
abbrev DPath := List Nat

mutual
def Dom.withPaths : Dom → DPath → List (DPath × Dom)
  | .node t a x cs, p => (p, .node t a x cs) :: DomList.withPaths cs p 0
def DomList.withPaths : DomList → DPath → Nat → List (DPath × Dom)
  | .nil, _, _ => []
  | .cons d ds, p, i => Dom.withPaths d (p ++ [i]) ++ DomList.withPaths ds p (i + 1)
end

def DomList.get? : DomList → Nat → Option Dom
  | .nil, _ => none
  | .cons d _, 0 => some d
  | .cons _ ds, n + 1 => ds.get? n

def Dom.getPath? : Dom → DPath → Option Dom
  | d, [] => some d
  | d, i :: p =>
    match d.children.get? i with
    | some c => c.getPath? p
    | none => none

/-- All elements of the document in document order (`querySelectorAll` on
the document), with their paths. -/
def selectAll (root : Dom) (pred : Dom → Bool) : List (DPath × Dom) :=
  (root.withPaths []).filter (fun pd => pred pd.2)

/-- Descendant elements of the node at `base`, in document order (a scoped
`element.querySelectorAll`, which excludes the element itself). -/
def selectFrom (root : Dom) (base : DPath) (pred : Dom → Bool) : List (DPath × Dom) :=
  match root.getPath? base with
  | some d => (DomList.withPaths d.children base 0).filter (fun pd => pred pd.2)
  | none => []

def parentPath? (p : DPath) : Option DPath :=
  if p.isEmpty then none else some p.dropLast

def prevSibPath (p : DPath) : Option DPath :=
  match p.getLast? with
  | some i => if i = 0 then none else some (p.dropLast ++ [i - 1])
  | none => none

def nextSibPath (p : DPath) : Option DPath :=
  match p.getLast? with
  | some i => some (p.dropLast ++ [i + 1])
  | none => none

/-- `element.closest(sel)`: the nearest ancestor-or-self satisfying the
predicate; the fuel is the path length (one step per ancestor). -/
def closestGo (root : Dom) (pred : Dom → Bool) : Nat → DPath → Option (DPath × Dom)
  | 0, p => (root.getPath? p).bind (fun d => if pred d then some (p, d) else none)
  | fuel + 1, p =>
    match root.getPath? p with
    | some d =>
      if pred d then some (p, d)
      else if p.isEmpty then none
      else closestGo root pred fuel p.dropLast
    | none => none

def closest (root : Dom) (p : DPath) (pred : Dom → Bool) : Option (DPath × Dom) :=
  closestGo root pred p.length p

/-- Whitespace-splitting of the `class` attribute into tokens. -/
def splitWsGo (cur : List Char) : List Char → List (List Char)
  | [] => if cur.isEmpty then [] else [cur.reverse]
  | c :: cs =>
    if isWsChar c then
      if cur.isEmpty then splitWsGo [] cs else cur.reverse :: splitWsGo [] cs
    else splitWsGo (c :: cur) cs

def Dom.classTokens (d : Dom) : List String :=
  (splitWsGo [] (d.attrD "class" "").data).map (fun l => (⟨l⟩ : String))

/-- Class selector `.tok`. -/
def hasClassToken (d : Dom) (tok : String) : Bool := d.classTokens.contains tok

/-- Attribute substring selector `[class*="sub"]`. -/
def classContains (d : Dom) (sub : String) : Bool :=
  containsL (d.attrD "class" "").data sub.data

def roleIs (d : Dom) (r : String) : Bool := d.attrD "role" "" = r

/-! ## MCQExtractor (live-page extraction) -/

namespace MCQExtractor

open Highlighter (sepChar)

/-- Extracted option `{text, element, value}` with the DOM handle omitted. -/
structure EOption where
  text : String
  value : String
deriving DecidableEq, Repr

/-- Extracted MCQ; `qtype` is the source's `type` tag, `groupName` is set by
the radio strategy only.  The `questionElement`/`element` handles are
omitted. -/
structure EMcq where
  question : String
  options : List EOption
  qtype : String
  groupName : Option String := none
deriving DecidableEq, Repr

/-- A page as seen by the extractor: its tree and `window.location.hostname`. -/
structure Document where
  root : Dom
  hostname : String

/-- Embeds `MCQExtractor.extractTextContent` (part_001, lines 467-477):
clone, drop `script`/`style`, `textContent.trim().replace(/\s+/g, ' ')`. -/
def extractTextContent (d : Dom) : String :=
  ⟨collapseWs (trimChars d.tcns)⟩

def interrogatives : List String :=
  ["what", "which", "who", "where", "when", "why", "how"]

def instructionWords : List String :=
  ["select", "choose", "identify", "find", "determine"]

/-- Unanchored `/\d+[.)\s]+/`: some digit directly followed by `.`, `)` or
whitespace. -/
def hasDigitThenSep : List Char → Bool
  | [] => false
  | [_] => false
  | c :: d :: rest =>
    (isDigitChar c && (d = '.' || d = ')' || isWsChar d)) || hasDigitThenSep (d :: rest)

/-- Embeds `MCQExtractor.looksLikeQuestion` (part_001, lines 447-460); the
patterns are tested against `text.trim()`. -/
def looksLikeQuestion (text : String) : Bool :=
  if text.data.length < 10 then false
  else
    let t := trimChars text.data
    let lt := t.map lowChar
    (t.getLast? = some '?') ||
      MCQParser.startsAny lt interrogatives ||
      MCQParser.startsAny lt instructionWords ||
      (startsL "question ".data lt &&
        (match lt.drop 9 with | c :: _ => isDigitChar c | [] => false)) ||
      (match lt with | 'q' :: c :: _ => isDigitChar c | _ => false) ||
      hasDigitThenSep t

/-- Embeds `MCQExtractor.cleanOptionText` (part_001, lines 484-489): the
letter and digit prefix `replace`s (identical to the first two of
`MCQParser.cleanOption`), then `trim()`. -/
def cleanOptionText (text : String) : String :=
  ⟨trimChars (MCQParser.stripDigitsMark (MCQParser.stripLetterMark text.data))⟩

/-- The list strategy's `optionPattern = /^[A-Z][.\):\s]|^\d+[.\):\s]/i`. -/
def optionMarkStart (l : List Char) : Bool :=
  (match l with
   | c :: d :: _ => isAsciiLetter c && sepChar d
   | _ => false) ||
  (let ds := l.takeWhile isDigitChar
   !ds.isEmpty && (match l.drop ds.length with
     | d :: _ => sepChar d
     | [] => false))

/-- The previous-sibling walk of `findQuestionBeforeElement`: up to five
previous siblings are inspected for question-looking text. -/
def prevSibsLoop (root : Dom) : Nat → Option DPath → Option String
  | _, none => none
  | 0, some _ => none
  | fuel + 1, some q =>
    match root.getPath? q with
    | none => none
    | some d =>
      let t := extractTextContent d
      if looksLikeQuestion t then some t
      else prevSibsLoop root fuel (prevSibPath q)

/-- Tags accepted by the parent-fallback `querySelector`. -/
def headingPDiv (d : Dom) : Bool :=
  ["h1", "h2", "h3", "h4", "h5", "h6", "p", "div"].contains d.tag

/-- Embeds `MCQExtractor.findQuestionBeforeElement` (part_001, lines
377-413); returns the question text (the accompanying element handle is
dropped). -/
def findQuestionBeforeElement (root : Dom) (p : DPath) : Option String :=
  match prevSibsLoop root 5 (prevSibPath p) with
  | some t => some t
  | none =>
    match parentPath? p with
    | some par =>
      match (selectFrom root par headingPDiv).head? with
      | some hd =>
        if hd.1 ≠ p then
          let t := extractTextContent hd.2
          if looksLikeQuestion t then some t else none
        else none
      | none => none
    | none => none

def questionContainer (d : Dom) : Bool :=
  d.tag = "fieldset" || hasClassToken d "question" || hasClassToken d "quiz-item" ||
    roleIs d "group"

def headingTag (d : Dom) : Bool :=
  ["h1", "h2", "h3", "h4", "h5", "h6"].contains d.tag

/-- Embeds `MCQExtractor.findQuestionForRadioGroup` (part_001, lines
347-370). -/
def findQuestionForRadioGroup (root : Dom) (p : DPath) : Option String :=
  match closest root p questionContainer with
  | some cp =>
    match (selectFrom root cp.1 (fun d => d.tag = "legend")).head? with
    | some leg => some (extractTextContent leg.2)
    | none =>
      match (selectFrom root cp.1
          (fun d => headingTag d || hasClassToken d "question-text")).head? with
      | some h => some (extractTextContent h.2)
      | none => findQuestionBeforeElement root p
  | none => findQuestionBeforeElement root p

/-- Embeds `MCQExtractor.findLabelForInput` (part_001, lines 420-440). -/
def findLabelForInput (root : Dom) (p : DPath) (d : Dom) : Option String :=
  match d.attr? "id" with
  | some id =>
    if id ≠ "" then
      match (selectAll root (fun n => n.tag = "label" && n.attrD "for" "" = id)).head? with
      | some lab => some (extractTextContent lab.2)
      | none => labelFallback root p
    else labelFallback root p
  | none => labelFallback root p
where
  labelFallback (root : Dom) (p : DPath) : Option String :=
    match closest root p (fun n => n.tag = "label") with
    | some lab => some (extractTextContent lab.2)
    | none =>
      match nextSibPath p with
      | some np =>
        match root.getPath? np with
        | some sib => some (extractTextContent sib)
        | none => none
      | none => none

def isRadioInput (d : Dom) : Bool :=
  d.tag = "input" && d.attrD "type" "" = "radio"

/-- Builds the `radioGroups` object: insertion-ordered groups keyed by the
`name` attribute, radios appended in document order. -/
def groupInsert (groups : List (String × List (DPath × Dom))) (name : String)
    (r : DPath × Dom) : List (String × List (DPath × Dom)) :=
  match groups with
  | [] => [(name, [r])]
  | (n, rs) :: t =>
    if n = name then (n, rs ++ [r]) :: t else (n, rs) :: groupInsert t name r

def radioGroups (root : Dom) : List (String × List (DPath × Dom)) :=
  (selectAll root isRadioInput).foldl (fun gs pd =>
    let name := pd.2.attrD "name" ""
    if name = "" then gs else groupInsert gs name pd) []

/-- The option object built for one radio input:
`{text: label || radio.value, value: radio.value}`. -/
def radioOption (root : Dom) (r : DPath × Dom) : EOption :=
  let label := findLabelForInput root r.1 r.2
  let value := r.2.attrD "value" ""
  let t := match label with
    | some s => if s = "" then value else s
    | none => value
  ⟨t, value⟩

/-- The body of the per-group loop of `extractFromRadioButtons`. -/
def radioGroupToMcq (root : Dom) (g : String × List (DPath × Dom)) : Option EMcq :=
  match g.2 with
  | [] => none
  | r0 :: _ =>
    match findQuestionForRadioGroup root r0.1 with
    | some qt =>
      let options := g.2.map (radioOption root)
      if options.length > 1 then some ⟨qt, options, "radio", some g.1⟩ else none
    | none => none

/-- Embeds `MCQExtractor.extractFromRadioButtons` (part_001, lines 44-84). -/
def extractFromRadioButtons (root : Dom) : List EMcq :=
  (radioGroups root).filterMap (radioGroupToMcq root)

/-- The body of the per-list loop of `extractFromLists`. -/
def listToMcq (root : Dom) (lp : DPath × Dom) : Option EMcq :=
  let items := selectFrom root lp.1 (fun d => d.tag = "li")
  match findQuestionBeforeElement root lp.1 with
  | some qt =>
    if 2 ≤ items.length ∧ items.length ≤ 6 then
      if items.any (fun it => optionMarkStart (trimChars it.2.textContentL)) then
        some ⟨qt,
          items.map (fun it =>
            ⟨cleanOptionText it.2.textContent, ⟨trimChars it.2.textContentL⟩⟩),
          "list", none⟩
      else none
    else none
  | none => none

/-- Embeds `MCQExtractor.extractFromLists` (part_001, lines 90-125). -/
def extractFromLists (root : Dom) : List EMcq :=
  (selectAll root (fun d => d.tag = "ol" || d.tag = "ul")).filterMap (listToMcq root)

def qSelectors : List (Dom → Bool) :=
  [fun d => hasClassToken d "question",
   fun d => hasClassToken d "quiz-question",
   fun d => hasClassToken d "mcq-question",
   fun d => classContains d "question",
   fun d => (d.attr? "data-question").isSome]

def oSelectors : List (Dom → Bool) :=
  [fun d => hasClassToken d "option",
   fun d => hasClassToken d "answer-option",
   fun d => hasClassToken d "choice",
   fun d => classContains d "option",
   fun d => classContains d "choice"]

/-- Embeds `MCQExtractor.extractFromDivStructure` (part_001, lines 131-187).
Each option selector's query overwrites `optionElements` when non-empty, so
the last non-empty query wins; the query runs on the parent when the
question element has one (an empty NodeList is still truthy), else on the
question element itself. -/
def divQuestionToMcq (root : Dom) (qp : DPath × Dom) : Option EMcq :=
  let optionElements := oSelectors.foldl (fun acc osel =>
    let found := match parentPath? qp.1 with
      | some par => selectFrom root par osel
      | none => selectFrom root qp.1 osel
    if found.length > 0 then found else acc) []
  if 2 ≤ optionElements.length ∧ optionElements.length ≤ 6 then
    some ⟨extractTextContent qp.2,
      optionElements.map (fun e => ⟨extractTextContent e.2, extractTextContent e.2⟩),
      "div", none⟩
  else none

def extractFromDivStructure (root : Dom) : List EMcq :=
  (qSelectors.map (fun sel =>
    (selectAll root sel).filterMap (divQuestionToMcq root))).flatten

/-- The body of the per-table loop of `extractFromTableFormat`. -/
def tableToMcq (root : Dom) (tp : DPath × Dom) : Option EMcq :=
  let rows := selectFrom root tp.1 (fun d => d.tag = "tr")
  if rows.length ≥ 3 then
    match rows with
    | r0 :: rest =>
      if 2 ≤ rest.length ∧ rest.length ≤ 6 then
        some ⟨extractTextContent r0.2,
          rest.map (fun r => ⟨extractTextContent r.2, extractTextContent r.2⟩),
          "table", none⟩
      else none
    | [] => none
  else none

/-- Embeds `MCQExtractor.extractFromTableFormat` (part_001, lines 193-226). -/
def extractFromTableFormat (root : Dom) : List EMcq :=
  (selectAll root (fun d => d.tag = "table")).filterMap (tableToMcq root)

/-- The shared per-question body of the three platform extractors: find the
first question-text descendant, collect the option descendants, and emit
when the text is non-empty and there is more than one option. -/
def platformToMcq (root : Dom) (qPred oPred : Dom → Bool) (qtype : String)
    (qp : DPath × Dom) : Option EMcq :=
  let qt := (selectFrom root qp.1 qPred).head?.map (fun h => h.2.textContent)
  let opts := selectFrom root qp.1 oPred
  match qt with
  | some t =>
    if t ≠ "" ∧ opts.length > 1 then
      some ⟨t, opts.map (fun o => ⟨o.2.textContent, o.2.textContent⟩), qtype, none⟩
    else none
  | none => none

/-- Embeds `MCQExtractor.extractFromGoogleForms` (part_001, lines 258-281);
these platform extractors use raw `textContent` (not `extractTextContent`). -/
def extractFromGoogleForms (root : Dom) : List EMcq :=
  (selectAll root (fun d => roleIs d "listitem")).filterMap
    (platformToMcq root (fun d => roleIs d "heading") (fun d => roleIs d "radio")
      "google-forms")

/-- Embeds `MCQExtractor.extractFromQuizlet` (part_001, lines 287-311). -/
def extractFromQuizlet (root : Dom) : List EMcq :=
  (selectAll root (fun d => classContains d "MultipleChoiceQuestion")).filterMap
    (platformToMcq root (fun d => classContains d "question")
      (fun d => classContains d "choice") "quizlet")

/-- Embeds `MCQExtractor.extractFromCanvas` (part_001, lines 317-340). -/
def extractFromCanvas (root : Dom) : List EMcq :=
  (selectAll root (fun d => hasClassToken d "question")).filterMap
    (platformToMcq root (fun d => hasClassToken d "question_text")
      (fun d => hasClassToken d "answer") "canvas")

/-- Embeds `MCQExtractor.extractFromCommonPlatforms` (part_001, lines
232-252): dispatch on `window.location.hostname` (plus the Canvas
class-marker probe). -/
def extractFromCommonPlatforms (doc : Document) : List EMcq :=
  if jsIncludes doc.hostname "google.com/forms" then extractFromGoogleForms doc.root
  else if jsIncludes doc.hostname "quizlet.com" then extractFromQuizlet doc.root
  else if jsIncludes doc.hostname "instructure.com" ∨
      (selectAll doc.root (fun d => classContains d "canvas")).length > 0 then
    extractFromCanvas doc.root
  else []

/-- Embeds `MCQExtractor.extractAll` (part_001, lines 13-38): the five
strategies behind the `try`/`catch` loop, then `deduplicate`. -/
def extractAll (doc : Document) : List EMcq :=
  deduplicate (fun m => jsClean m.question)
    (strategyFold
      [Except.ok (extractFromRadioButtons doc.root),
       Except.ok (extractFromLists doc.root),
       Except.ok (extractFromDivStructure doc.root),
       Except.ok (extractFromTableFormat doc.root),
       Except.ok (extractFromCommonPlatforms doc)])

end MCQExtractor

/-! ## Specification-side definitions

These definitions are written from the specification's wording (not from
the source) and are compared against the source-derived functions in the
theorems below. -/

/-- Specification-side deduplication: keep exactly the first candidate of
each key, dropping every later candidate with the same key. -/
def keepFirstByKey {α : Type} (key : α → String) : List α → List α
  | [] => []
  | m :: ms => m :: keepFirstByKey key (ms.filter (fun x => key x != key m))
termination_by l => l.length
decreasing_by
  exact Nat.lt_succ_of_le (List.length_filter_le _ _)

/-- A non-empty run of option-marker separators. -/
def allSepRun (l : List Char) : Bool := !l.isEmpty && l.all Highlighter.sepChar

/-- A leading marker of the letter form: one ASCII letter followed by a
non-empty separator run (what one application of `/^[A-Z][.\):\s]+/i`
removes). -/
def letterMarker (m : List Char) : Bool :=
  match m with
  | c :: rest => isAsciiLetter c && allSepRun rest
  | [] => false

/-- A leading marker of the digit form: a digit sequence followed by a
non-empty separator run. -/
def digitsMarker (m : List Char) : Bool :=
  let ds := m.takeWhile isDigitChar
  !ds.isEmpty && allSepRun (m.drop ds.length)

/-- A parenthesised letter marker `(A)`, with trailing whitespace. -/
def parenLetterMarker (m : List Char) : Bool :=
  match m with
  | '(' :: c :: ')' :: ws => isAsciiLetter c && ws.all isWsChar
  | _ => false

/-- A parenthesised digit marker `(12)`, with trailing whitespace. -/
def parenDigitMarker (m : List Char) : Bool :=
  match m with
  | '(' :: rest =>
    let ds := rest.takeWhile isDigitChar
    !ds.isEmpty && (match rest.drop ds.length with
      | ')' :: ws => ws.all isWsChar
      | _ => false)
  | _ => false

/-- Any single leading option marker in the sense of the specification's
`stripOptionPrefix`. -/
def isOptionMarker (m : List Char) : Bool :=
  letterMarker m || digitsMarker m || parenLetterMarker m || parenDigitMarker m

/-- Reversed prefixes of `acc ++ as` that extend `acc`:
`[acc, a₀ :: acc, a₁ :: a₀ :: acc, ...]`.  Used to state what each row of
the Wagner-Fischer matrix contains. -/
def revPre (acc : List Char) : List Char → List (List Char)
  | [] => [acc]
  | c :: cs => acc :: revPre (c :: acc) cs

/-! ## Test fixtures (concrete inputs used by witnesses and
counterexamples) -/

namespace Fixtures

def radioInput (v : String) : Dom :=
  el "input" [("type", "radio"), ("name", "q1"), ("value", v)] "" []

/-- A page with one radio group of seven radio buttons inside a `fieldset`
with a `legend` question. -/
def sevenRadioDoc : MCQExtractor.Document :=
  ⟨el "body" [] ""
    [el "fieldset" [] ""
      (el "legend" [] "What is the capital of France?" [] ::
        (["v1", "v2", "v3", "v4", "v5", "v6", "v7"].map radioInput))],
   "example.com"⟩

def berlinOpts : List Highlighter.HOption := [⟨"Paris"⟩, ⟨"Berlin"⟩, ⟨"Rome"⟩]

/-- The single MCQ that `extractAll` yields on `sevenRadioDoc`. -/
def sevenMcq : MCQExtractor.EMcq :=
  ⟨"What is the capital of France?",
   ["v1", "v2", "v3", "v4", "v5", "v6", "v7"].map (fun v => ⟨v, v⟩),
   "radio", some "q1"⟩

/-- A small OCR text with one numbered question and four lettered options. -/
def numberedText : String := "1. What is 2+2?\nA. 2\nB. 3\nC. 4\nD. 5"

/-- The MCQ that `MCQParser.parse` yields on `numberedText`. -/
def numberedMcq : MCQParser.PMcq := ⟨"What is 2+2?", ["2", "3", "4", "5"], some 1⟩

end Fixtures

/-! # Theorems

Helper lemmas first, then one theorem per claim of the specification
review, together with the required witnesses and counterexamples. -/

/-! ## Edit-distance theory

The chain of lemmas below proves that the Wagner-Fischer matrix computed by
`Highlighter.levenshteinDistance` yields exactly the classic recursion
`editDistance`: row `i` of the matrix lists the distances from the reversed
`i`-prefix of `b` to the reversed prefixes of `a`, so the final entry is
`editDistance b.reverse a.reverse`, and edit distance is invariant under
simultaneous reversal and symmetric in its arguments. -/

theorem editDistance_nil_left (ys : List Char) : editDistance [] ys = ys.length := rfl

theorem editDistance_nil_right (xs : List Char) : editDistance xs [] = xs.length := by
  induction xs with
  | nil => rfl
  | cons x xs ih =>
    show editDistance xs [] + 1 = xs.length + 1
    rw [ih]

theorem editDistance_cons_cons (x y : Char) (xs ys : List Char) :
    editDistance (x :: xs) (y :: ys) =
      if x = y then editDistance xs ys
      else 1 + min (editDistance xs ys)
        (min (editDistance (x :: xs) ys) (editDistance xs (y :: ys))) := rfl

theorem editDistance_comm_aux :
    ∀ (n : Nat) (xs ys : List Char), xs.length + ys.length ≤ n →
      editDistance xs ys = editDistance ys xs := by
  intro n
  induction n with
  | zero =>
    intro xs ys h
    have hx : xs = [] := by cases xs <;> simp_all
    have hy : ys = [] := by cases ys <;> simp_all
    subst hx; subst hy; rfl
  | succ n ih =>
    intro xs ys h
    cases xs with
    | nil => rw [editDistance_nil_left, editDistance_nil_right]
    | cons x xs =>
      cases ys with
      | nil => rw [editDistance_nil_left, editDistance_nil_right]
      | cons y ys =>
        rw [editDistance_cons_cons, editDistance_cons_cons]
        simp only [List.length_cons] at h
        rw [ih xs ys (by omega), ih (x :: xs) ys (by simp; omega),
          ih xs (y :: ys) (by simp; omega)]
        by_cases hxy : x = y
        · simp [hxy]
        · rw [if_neg hxy, if_neg (fun hh => hxy hh.symm)]
          omega

theorem editDistance_comm (xs ys : List Char) : editDistance xs ys = editDistance ys xs :=
  editDistance_comm_aux (xs.length + ys.length) xs ys le_rfl

theorem editDistance_single (x : Char) (ws : List Char) :
    editDistance [x] ws = if x ∈ ws then ws.length - 1 else max 1 ws.length := by
  induction ws with
  | nil => simp [editDistance, edAux]
  | cons q qs ih =>
    rw [show ([x] : List Char) = x :: [] from rfl, editDistance_cons_cons,
      editDistance_nil_left, editDistance_nil_left, ih]
    simp only [List.mem_cons, List.length_cons]
    by_cases hxq : x = q
    · subst hxq
      rw [if_pos rfl, if_pos (Or.inl rfl)]
      omega
    · rw [if_neg hxq]
      by_cases hin : x ∈ qs
      · have hpos : 0 < qs.length := List.length_pos_of_mem hin
        rw [if_pos hin, if_pos (Or.inr hin)]
        omega
      · rw [if_neg hin, if_neg (fun h => h.elim hxq hin)]
        omega

theorem editDistance_single_snoc (x y : Char) (ys : List Char) :
    editDistance [x] (ys ++ [y]) =
      if x = y then editDistance [] ys
      else 1 + min (editDistance [] ys)
        (min (editDistance [x] ys) (editDistance [] (ys ++ [y]))) := by
  cases ys with
  | nil => rfl
  | cons q qs =>
    rw [List.cons_append, show ([x] : List Char) = x :: [] from rfl,
      editDistance_cons_cons, editDistance_single x (qs ++ [y]),
      editDistance_single x (q :: qs)]
    simp only [editDistance_nil_left, List.length_cons, List.length_append,
      List.length_singleton, List.length_nil]
    by_cases hin : x ∈ qs
    · have hpos : 0 < qs.length := List.length_pos_of_mem hin
      split_ifs <;> simp_all <;> omega
    · split_ifs <;> simp_all <;> omega

theorem editDistance_snoc_single (x y : Char) (xs : List Char) :
    editDistance (xs ++ [x]) [y] =
      if x = y then editDistance xs []
      else 1 + min (editDistance xs [])
        (min (editDistance (xs ++ [x]) []) (editDistance xs [y])) := by
  rw [editDistance_comm (xs ++ [x]) [y], editDistance_single_snoc y x xs]
  simp only [editDistance_nil_left, editDistance_nil_right, List.length_append,
    List.length_singleton]
  rw [editDistance_comm [y] xs]
  by_cases hxy : x = y
  · rw [if_pos (hxy.symm), if_pos hxy]
  · rw [if_neg (fun h => hxy h.symm), if_neg hxy]
    omega

theorem editDistance_snoc_aux :
    ∀ (n : Nat) (xs ys : List Char) (x y : Char), xs.length + ys.length ≤ n →
      editDistance (xs ++ [x]) (ys ++ [y]) =
        if x = y then editDistance xs ys
        else 1 + min (editDistance xs ys)
          (min (editDistance (xs ++ [x]) ys) (editDistance xs (ys ++ [y]))) := by
  intro n
  induction n with
  | zero =>
    intro xs ys x y h
    have hx : xs = [] := by cases xs <;> simp_all
    have hy : ys = [] := by cases ys <;> simp_all
    subst hx; subst hy
    exact editDistance_single_snoc x y []
  | succ n ih =>
    intro xs ys x y h
    cases xs with
    | nil => exact editDistance_single_snoc x y ys
    | cons p ps =>
      cases ys with
      | nil => exact editDistance_snoc_single x y (p :: ps)
      | cons q qs =>
        simp only [List.length_cons] at h
        have i1 := ih ps qs x y (by omega)
        have i2 := ih (p :: ps) qs x y (by simp only [List.length_cons]; omega)
        have i3 := ih ps (q :: qs) x y (by simp only [List.length_cons]; omega)
        simp only [List.cons_append] at i2 i3 ⊢
        rw [editDistance_cons_cons p q (ps ++ [x]) (qs ++ [y]), i1, i2, i3]
        rw [editDistance_cons_cons p q ps qs,
          editDistance_cons_cons p q (ps ++ [x]) qs,
          editDistance_cons_cons p q ps (qs ++ [y])]
        by_cases hpq : p = q
        · by_cases hxy : x = y
          · simp only [if_pos hpq, if_pos hxy]
          · simp only [if_pos hpq, if_neg hxy]
        · by_cases hxy : x = y
          · simp only [if_neg hpq, if_pos hxy]
          · simp only [if_neg hpq, if_neg hxy]
            generalize editDistance ps qs = a1
            generalize editDistance (ps ++ [x]) qs = a2
            generalize editDistance ps (qs ++ [y]) = a3
            generalize editDistance (p :: ps) qs = b1
            generalize editDistance (p :: (ps ++ [x])) qs = b2
            generalize editDistance (p :: ps) (qs ++ [y]) = b3
            generalize editDistance ps (q :: qs) = c1
            generalize editDistance (ps ++ [x]) (q :: qs) = c2
            generalize editDistance ps (q :: (qs ++ [y])) = c3
            have hdist : ∀ u v : Nat, min (1 + u) (1 + v) = 1 + min u v := by
              intro u v; omega
            simp only [hdist]
            have htrans : min (min a1 (min a2 a3)) (min (min b1 (min b2 b3)) (min c1 (min c2 c3))) =
                min (min a1 (min b1 c1)) (min (min a2 (min b2 c2)) (min a3 (min b3 c3))) := by
              ac_rfl
            rw [htrans]

theorem editDistance_snoc (xs ys : List Char) (x y : Char) :
    editDistance (xs ++ [x]) (ys ++ [y]) =
      if x = y then editDistance xs ys
      else 1 + min (editDistance xs ys)
        (min (editDistance (xs ++ [x]) ys) (editDistance xs (ys ++ [y]))) :=
  editDistance_snoc_aux (xs.length + ys.length) xs ys x y le_rfl

theorem editDistance_reverse_aux :
    ∀ (n : Nat) (xs ys : List Char), xs.length + ys.length ≤ n →
      editDistance xs.reverse ys.reverse = editDistance xs ys := by
  intro n
  induction n with
  | zero =>
    intro xs ys h
    have hx : xs = [] := by cases xs <;> simp_all
    have hy : ys = [] := by cases ys <;> simp_all
    subst hx; subst hy; rfl
  | succ n ih =>
    intro xs ys h
    cases xs with
    | nil => simp [editDistance_nil_left]
    | cons x xs =>
      cases ys with
      | nil => simp [editDistance_nil_right]
      | cons y ys =>
        simp only [List.length_cons] at h
        rw [List.reverse_cons, List.reverse_cons, editDistance_snoc,
          ← List.reverse_cons x xs, ← List.reverse_cons y ys]
        rw [ih xs ys (by omega), ih (x :: xs) ys (by simp only [List.length_cons]; omega),
          ih xs (y :: ys) (by simp only [List.length_cons]; omega)]
        rw [editDistance_cons_cons]

theorem editDistance_reverse (xs ys : List Char) :
    editDistance xs.reverse ys.reverse = editDistance xs ys :=
  editDistance_reverse_aux (xs.length + ys.length) xs ys le_rfl

theorem revPre_cons (acc : List Char) (ac : Char) (as : List Char) :
    revPre acc (ac :: as) = acc :: revPre (ac :: acc) as := rfl

theorem revPre_eq_cons (as acc : List Char) :
    revPre acc as = acc :: (revPre acc as).tail := by
  cases as <;> rfl

theorem revPre_getLast? (as : List Char) :
    ∀ acc, (revPre acc as).getLast? = some (as.reverse ++ acc) := by
  induction as with
  | nil => intro acc; rfl
  | cons c cs ih =>
    intro acc
    rw [revPre_cons, List.getLast?_cons, ih (c :: acc)]
    simp

theorem rowStep_cur (bc ac : Char) (ru acc : List Char) :
    (if bc = ac then editDistance ru acc
     else min (editDistance ru acc + 1)
       (min (editDistance (bc :: ru) acc + 1) (editDistance ru (ac :: acc) + 1)))
      = editDistance (bc :: ru) (ac :: acc) := by
  rw [editDistance_cons_cons]
  by_cases h : bc = ac
  · rw [if_pos h, if_pos h]
  · rw [if_neg h, if_neg h]
    omega

theorem rowStep_spec (bc : Char) (ru : List Char) :
    ∀ (as acc : List Char),
      editDistance (bc :: ru) acc ::
          rowStep bc ((revPre acc as).map (fun w => editDistance ru w)) as
            (editDistance (bc :: ru) acc)
        = (revPre acc as).map (fun w => editDistance (bc :: ru) w) := by
  intro as
  induction as with
  | nil => intro acc; rfl
  | cons ac as ih =>
    intro acc
    have hr := revPre_eq_cons as (ac :: acc)
    have hmapRu : (revPre (ac :: acc) as).map (fun w => editDistance ru w) =
        editDistance ru (ac :: acc) ::
          ((revPre (ac :: acc) as).tail.map (fun w => editDistance ru w)) := by
      conv_lhs => rw [hr]
      rfl
    have hmapE : (revPre (ac :: acc) as).map (fun w => editDistance (bc :: ru) w) =
        editDistance (bc :: ru) (ac :: acc) ::
          ((revPre (ac :: acc) as).tail.map (fun w => editDistance (bc :: ru) w)) := by
      conv_lhs => rw [hr]
      rfl
    rw [revPre_cons, List.map_cons, List.map_cons, hmapRu]
    simp only [rowStep]
    rw [rowStep_cur bc ac ru acc]
    rw [← hmapRu, ih (ac :: acc), hmapE]

theorem revPre_map_len :
    ∀ (as acc : List Char),
      (revPre acc as).map (fun w => editDistance [] w) =
        List.range' acc.length (as.length + 1) := by
  intro as
  induction as with
  | nil => intro acc; rfl
  | cons c cs ih =>
    intro acc
    rw [revPre_cons, List.map_cons, ih (c :: acc)]
    simp only [List.length_cons]
    rw [show List.range' acc.length (cs.length + 1 + 1) =
      acc.length :: List.range' (acc.length + 1) (cs.length + 1) from rfl]
    rfl

theorem revPre_map_getLastD (f : List Char → Nat) :
    ∀ (as acc : List Char) (d0 : Nat),
      ((revPre acc as).map f).getLastD d0 = f (as.reverse ++ acc) := by
  intro as
  induction as with
  | nil => intro acc d0; rfl
  | cons c cs ih =>
    intro acc d0
    rw [revPre_cons, List.map_cons, List.getLastD_cons]
    rw [ih (c :: acc) (f acc)]
    congr 1
    simp [List.append_assoc]

theorem levFold_spec (a : List Char) :
    ∀ (b rb : List Char),
      b.foldl (Highlighter.levFold a)
          ((revPre [] a).map (fun w => editDistance rb w), rb.length)
        = ((revPre [] a).map (fun w => editDistance (b.reverse ++ rb) w),
            rb.length + b.length) := by
  intro b
  induction b with
  | nil => intro rb; simp
  | cons bc b ih =>
    intro rb
    rw [List.foldl_cons]
    have h0 : editDistance (bc :: rb) [] = rb.length + 1 :=
      editDistance_nil_right (bc :: rb)
    have hstep : Highlighter.levFold a
        ((revPre [] a).map (fun w => editDistance rb w), rb.length) bc
        = ((revPre [] a).map (fun w => editDistance (bc :: rb) w), rb.length + 1) := by
      show ((rb.length + 1) ::
          rowStep bc ((revPre [] a).map (fun w => editDistance rb w)) a (rb.length + 1),
          rb.length + 1)
        = ((revPre [] a).map (fun w => editDistance (bc :: rb) w), rb.length + 1)
      rw [← h0, rowStep_spec bc rb a []]
    have ih2 := ih (bc :: rb)
    simp only [List.length_cons] at ih2
    rw [hstep, ih2]
    rw [show (bc :: b).reverse = b.reverse ++ [bc] from List.reverse_cons bc b]
    rw [List.append_assoc]
    simp only [List.singleton_append, List.length_cons, Prod.mk.injEq, true_and]
    omega

/-- The Wagner-Fischer loop of `Highlighter.levenshteinDistance` computes
exactly the classic unit-cost edit distance. -/
theorem lev_eq_editDistance (a b : List Char) :
    Highlighter.levenshteinDistance a b = editDistance a b := by
  unfold Highlighter.levenshteinDistance
  have hinit : List.range (a.length + 1) =
      (revPre [] a).map (fun w => editDistance [] w) := by
    rw [List.range_eq_range']
    rw [revPre_map_len a []]
    rfl
  rw [hinit]
  have hfold := levFold_spec a b []
  simp only [List.length_nil, List.append_nil] at hfold
  rw [hfold]
  show ((revPre [] a).map (fun w => editDistance b.reverse w)).getLastD 0 = editDistance a b
  rw [revPre_map_getLastD (fun w => editDistance b.reverse w) a [] 0]
  rw [List.append_nil]
  rw [editDistance_reverse b a, editDistance_comm b a]

/-! ## Resolver tier lemmas and claims C1, C5, C7 -/

theorem findM_exact {options : List Highlighter.HOption} {answer : String}
    {o : Highlighter.HOption}
    (h : Highlighter.exactTier options (jsClean answer) = some o) :
    Highlighter.findMatchingOptionM options answer = some (o, Highlighter.Method.exact) := by
  simp only [Highlighter.findMatchingOptionM]
  rw [h]

theorem matchA_exact {options : List String} {answer : String} {s : String}
    (h : options.find? (fun o => jsClean o = jsClean answer) = some s) :
    AIService.matchAnswerToOptionM answer options = some (s, Highlighter.Method.exact) := by
  simp only [AIService.matchAnswerToOptionM]
  rw [h]

/-- C1: for every option list and every answer string equal to some
option's text up to case and surrounding whitespace (the resolver's
`toLowerCase().trim()` normalisation), both resolvers
(`Highlighter.findMatchingOption` and `AIService._matchAnswerToOption`)
return an option with that text via the `exact` tier — never falling
through to the substring, letter or fuzzy tiers. -/
theorem c1_exact_tier (optionsH : List Highlighter.HOption) (optionsS : List String)
    (answer : String)
    (hH : ∃ o ∈ optionsH, jsClean o.text = jsClean answer)
    (hS : ∃ s ∈ optionsS, jsClean s = jsClean answer) :
    (∃ o, Highlighter.findMatchingOptionM optionsH answer =
        some (o, Highlighter.Method.exact) ∧ jsClean o.text = jsClean answer) ∧
    (∃ s, AIService.matchAnswerToOptionM answer optionsS =
        some (s, Highlighter.Method.exact) ∧ jsClean s = jsClean answer) := by
  constructor
  · have hsome : (optionsH.find? (fun o => jsClean o.text = jsClean answer)).isSome := by
      rw [List.find?_isSome]
      obtain ⟨o, ho, he⟩ := hH
      exact ⟨o, ho, by simp [he]⟩
    obtain ⟨o, ho⟩ := Option.isSome_iff_exists.mp hsome
    refine ⟨o, findM_exact ho, ?_⟩
    have := List.find?_some ho
    simpa using this
  · have hsome : (optionsS.find? (fun s => jsClean s = jsClean answer)).isSome := by
      rw [List.find?_isSome]
      obtain ⟨s, hs, he⟩ := hS
      exact ⟨s, hs, by simp [he]⟩
    obtain ⟨s, hs⟩ := Option.isSome_iff_exists.mp hsome
    refine ⟨s, matchA_exact hs, ?_⟩
    have := List.find?_some hs
    simpa using this

theorem c1_exact_tier_witness :
    (∃ o ∈ ([⟨"Paris"⟩, ⟨"Berlin"⟩] : List Highlighter.HOption),
      jsClean o.text = jsClean "  BERLIN ") ∧
    (∃ s ∈ ["Paris", "Berlin"], jsClean s = jsClean "  BERLIN ") ∧
    ((∃ o, Highlighter.findMatchingOptionM [⟨"Paris"⟩, ⟨"Berlin"⟩] "  BERLIN " =
        some (o, Highlighter.Method.exact) ∧ jsClean o.text = jsClean "  BERLIN ") ∧
     (∃ s, AIService.matchAnswerToOptionM "  BERLIN " ["Paris", "Berlin"] =
        some (s, Highlighter.Method.exact) ∧ jsClean s = jsClean "  BERLIN ")) :=
  ⟨by decide, by decide, c1_exact_tier _ _ _ (by decide) (by decide)⟩

/-- C5 counterexample: for options `["Paris", "Berlin", "Rome"]` and answer
`"B) Berlin"`, both resolvers return `"Berlin"` via the substring tier, not
the letter tier (the cleaned answer contains the option text, so the
substring tier fires first). -/
theorem c5_counterexample :
    Highlighter.findMatchingOptionM Fixtures.berlinOpts "B) Berlin" =
        some (⟨"Berlin"⟩, Highlighter.Method.substring) ∧
    AIService.matchAnswerToOptionM "B) Berlin" ["Paris", "Berlin", "Rome"] =
        some ("Berlin", Highlighter.Method.substring) := by decide

/-- C5 (amended): the letter tier accepts only `^[A-D][.\):\s]` (up to
case), not arbitrary capitals; for an answer with such a prefix that fails
the exact and substring tiers and whose letter-coded index is within
bounds, both resolvers return the option at that index via the letter tier.
(The `"B) Berlin"` example instead resolves via the substring tier, see the
counterexample.) -/
theorem c5_letter_tier (options : List Highlighter.HOption) (optionsS : List String)
    (answer : String) (i : Nat)
    (hex : Highlighter.exactTier options (jsClean answer) = none)
    (hsub : Highlighter.substringTier options (jsClean answer) = none)
    (hexS : optionsS.find? (fun o => jsClean o = jsClean answer) = none)
    (hsub1 : optionsS.find? (fun o => jsIncludes (jsClean answer) (jsClean o)) = none)
    (hsub2 : optionsS.find? (fun o => jsIncludes (jsClean o) (jsClean answer)) = none)
    (hletter : Highlighter.letterIndex answer = some i)
    (hiH : i < options.length) (hiS : i < optionsS.length) :
    Highlighter.findMatchingOptionM options answer =
        some (options.get ⟨i, hiH⟩, Highlighter.Method.letter) ∧
    AIService.matchAnswerToOptionM answer optionsS =
        some (optionsS.get ⟨i, hiS⟩, Highlighter.Method.letter) := by
  constructor
  · simp only [Highlighter.findMatchingOptionM, Highlighter.letterTier]
    rw [hex, hsub, hletter]
    simp [List.getElem?_eq_getElem hiH]
  · simp only [AIService.matchAnswerToOptionM]
    rw [hexS, hsub1, hsub2, hletter]
    simp [List.getElem?_eq_getElem hiS]

theorem c5_letter_tier_witness :
    Highlighter.exactTier Fixtures.berlinOpts (jsClean "B)") = none ∧
    Highlighter.substringTier Fixtures.berlinOpts (jsClean "B)") = none ∧
    (["Paris", "Berlin", "Rome"].find? (fun o => jsClean o = jsClean "B)") = none ∧
     ["Paris", "Berlin", "Rome"].find? (fun o => jsIncludes (jsClean "B)") (jsClean o)) = none ∧
     ["Paris", "Berlin", "Rome"].find? (fun o => jsIncludes (jsClean o) (jsClean "B)")) = none) ∧
    Highlighter.letterIndex "B)" = some 1 ∧
    (Highlighter.findMatchingOptionM Fixtures.berlinOpts "B)" =
        some (Fixtures.berlinOpts.get ⟨1, by decide⟩, Highlighter.Method.letter) ∧
     AIService.matchAnswerToOptionM "B)" ["Paris", "Berlin", "Rome"] =
        some (["Paris", "Berlin", "Rome"].get ⟨1, by decide⟩, Highlighter.Method.letter)) :=
  ⟨by decide, by decide, ⟨by decide, by decide, by decide⟩, by decide,
    c5_letter_tier _ _ _ 1 (by decide) (by decide) (by decide) (by decide) (by decide)
      (by decide) (by decide) (by decide)⟩

/-- C7 counterexample: called with an empty option list, both resolvers
quietly return a no-match (`null`) instead of failing loudly; no exception
is raised on this input. -/
theorem c7_counterexample :
    Highlighter.findMatchingOptionM [] "Paris" = none ∧
    AIService.matchAnswerToOptionM "Paris" [] = none := by decide

/-- C7 (amended): the tier resolvers (`findMatchingOption`,
`_matchAnswerToOption`) return a quiet no-match on an empty option list for
every answer string; only the service entry `answerMCQ` validates its
arguments and throws `"Invalid question or options"` when the option list
is empty. -/
theorem c7_empty_options (answer q : String) :
    Highlighter.findMatchingOptionM [] answer = none ∧
    AIService.matchAnswerToOptionM answer [] = none ∧
    AIService.answerMCQCheck q [] = Except.error "Invalid question or options" := by
  refine ⟨?_, ?_, ?_⟩
  · simp only [Highlighter.findMatchingOptionM, Highlighter.exactTier,
      Highlighter.substringTier, Highlighter.letterTier, Highlighter.fuzzyTier,
      Highlighter.fuzzyScan, List.find?_nil, List.foldl_nil]
    cases Highlighter.letterIndex answer <;> rfl
  · simp only [AIService.matchAnswerToOptionM, List.find?_nil]
    cases Highlighter.letterIndex answer <;> rfl
  · simp [AIService.answerMCQCheck]

/-! ## Claims C9 (text-block end-to-end) and C10 (fallback parse) -/

/-- C9: parsing the five-line text `1. What is 2+2?` / `A. 2` / `B. 3` /
`C. 4` / `D. 5` yields exactly one MCQ with question `"What is 2+2?"`,
options `["2", "3", "4", "5"]` in order, and parsed question number 1. -/
theorem c9_text_block_end_to_end :
    MCQParser.parse "1. What is 2+2?\nA. 2\nB. 3\nC. 4\nD. 5" =
      [⟨"What is 2+2?", ["2", "3", "4", "5"], some 1⟩] := by decide

theorem fallbackRest_spec (text : String) (options : List String) (h : options ≠ []) :
    ∃ a, a ∈ options ∧ (AIService.fallbackRest text options).answer = some a ∧
      ((AIService.fallbackRest text options).confidence = 40 ∨
       (AIService.fallbackRest text options).confidence = 20) := by
  unfold AIService.fallbackRest
  cases hf : options.find? (fun o => jsIncludes (jsLower text) (jsLower o)) with
  | some o => exact ⟨o, List.mem_of_find?_eq_some hf, rfl, Or.inl rfl⟩
  | none =>
    cases options with
    | nil => exact absurd rfl h
    | cons a l => exact ⟨a, List.mem_cons_self a l, rfl, Or.inr rfl⟩

/-- C10: for every non-empty option list and every response text,
`_fallbackParse` returns an answer that is an element of the option list,
with confidence 50 (letter match), 40 (substring match) or 20 (first-option
default); it is a total function that never reports a no-match. -/
theorem c10_fallback_parse (text : String) (options : List String) (h : options ≠ []) :
    ∃ a, a ∈ options ∧ (AIService.fallbackParse text options).answer = some a ∧
      ((AIService.fallbackParse text options).confidence = 50 ∨
       (AIService.fallbackParse text options).confidence = 40 ∨
       (AIService.fallbackParse text options).confidence = 20) := by
  cases hscan : AIService.letterScan text.data with
  | some i =>
    have hred : AIService.fallbackParse text options =
        (if i < options.length then
          ⟨options.get? i, 50, "Extracted from unstructured response"⟩
         else AIService.fallbackRest text options) := by
      unfold AIService.fallbackParse
      rw [hscan]
    rw [hred]
    by_cases hi : i < options.length
    · rw [if_pos hi]
      refine ⟨options[i], List.getElem_mem hi, ?_, Or.inl rfl⟩
      show options.get? i = some options[i]
      simp [List.get?_eq_getElem?, List.getElem?_eq_getElem hi]
    · rw [if_neg hi]
      obtain ⟨a, ha, h1, h2⟩ := fallbackRest_spec text options h
      exact ⟨a, ha, h1, Or.inr h2⟩
  | none =>
    have hred : AIService.fallbackParse text options = AIService.fallbackRest text options := by
      unfold AIService.fallbackParse
      rw [hscan]
    rw [hred]
    obtain ⟨a, ha, h1, h2⟩ := fallbackRest_spec text options h
    exact ⟨a, ha, h1, Or.inr h2⟩

theorem c10_fallback_parse_witness :
    (["Paris", "Berlin"] : List String) ≠ [] ∧
    (∃ a, a ∈ ["Paris", "Berlin"] ∧
      (AIService.fallbackParse "no match here" ["Paris", "Berlin"]).answer = some a ∧
      ((AIService.fallbackParse "no match here" ["Paris", "Berlin"]).confidence = 50 ∨
       (AIService.fallbackParse "no match here" ["Paris", "Berlin"]).confidence = 40 ∨
       (AIService.fallbackParse "no match here" ["Paris", "Berlin"]).confidence = 20)) :=
  ⟨by decide, c10_fallback_parse "no match here" ["Paris", "Berlin"] (by decide)⟩

/-! ## Claim C3 (deduplication) -/

theorem dedupGo_eq_keepFirst {α : Type} (key : α → String) :
    ∀ (l : List α) (seen : List String),
      dedupGo key seen l =
        keepFirstByKey key (l.filter (fun x => decide (key x ∉ seen))) := by
  intro l
  induction l with
  | nil => intro seen; simp [dedupGo, keepFirstByKey]
  | cons m ms ih =>
    intro seen
    by_cases hm : key m ∈ seen
    · rw [show dedupGo key seen (m :: ms) = dedupGo key seen ms from by
        rw [dedupGo]; rw [if_pos hm]]
      rw [ih seen]
      congr 1
      simp [List.filter_cons, hm]
    · rw [show dedupGo key seen (m :: ms) = m :: dedupGo key (key m :: seen) ms from by
        rw [dedupGo]; rw [if_neg hm]]
      rw [ih (key m :: seen)]
      rw [show (m :: ms).filter (fun x => decide (key x ∉ seen)) =
          m :: ms.filter (fun x => decide (key x ∉ seen)) from by
        simp [List.filter_cons, hm]]
      rw [keepFirstByKey]
      have hfil : (ms.filter (fun x => decide (key x ∉ seen))).filter
            (fun x => key x != key m) =
          ms.filter (fun x => decide (key x ∉ key m :: seen)) := by
        rw [List.filter_filter]
        apply List.filter_congr
        intro x hx
        by_cases h1 : key x = key m <;> by_cases h2 : key x ∈ seen <;>
          simp [List.mem_cons, h1, h2]
      rw [hfil]

theorem deduplicate_eq_keepFirst {α : Type} (key : α → String) (l : List α) :
    deduplicate key l = keepFirstByKey key l := by
  unfold deduplicate
  rw [dedupGo_eq_keepFirst]
  congr 1
  apply List.filter_eq_self.mpr
  intro a _
  simp

theorem keepFirst_sublist_aux {α : Type} (key : α → String) :
    ∀ (n : Nat) (l : List α), l.length ≤ n → (keepFirstByKey key l).Sublist l := by
  intro n
  induction n with
  | zero =>
    intro l h
    have hl : l = [] := by cases l <;> simp_all
    subst hl
    simp [keepFirstByKey]
  | succ n ih =>
    intro l h
    cases l with
    | nil => simp [keepFirstByKey]
    | cons m ms =>
      rw [keepFirstByKey]
      apply List.Sublist.cons₂
      have h1 : (ms.filter (fun x => key x != key m)).length ≤ n := by
        have := List.length_filter_le (fun x => key x != key m) ms
        simp only [List.length_cons] at h
        omega
      exact (ih _ h1).trans (List.filter_sublist _)

theorem keepFirst_pairwise_aux {α : Type} (key : α → String) :
    ∀ (n : Nat) (l : List α), l.length ≤ n →
      (keepFirstByKey key l).Pairwise (fun a b => key a ≠ key b) := by
  intro n
  induction n with
  | zero =>
    intro l h
    have hl : l = [] := by cases l <;> simp_all
    subst hl
    simp [keepFirstByKey]
  | succ n ih =>
    intro l h
    cases l with
    | nil => simp [keepFirstByKey]
    | cons m ms =>
      rw [keepFirstByKey]
      have h1 : (ms.filter (fun x => key x != key m)).length ≤ n := by
        have := List.length_filter_le (fun x => key x != key m) ms
        simp only [List.length_cons] at h
        omega
      refine List.Pairwise.cons ?_ (ih _ h1)
      intro b hb
      have hb2 : b ∈ ms.filter (fun x => key x != key m) :=
        (keepFirst_sublist_aux key n _ h1).subset hb
      have hbne := List.of_mem_filter hb2
      simp only [bne, Bool.not_eq_true', beq_eq_false_iff_ne, ne_eq] at hbne
      exact fun hc => hbne hc.symm

/-- C3: `deduplicate` (identical in MCQExtractor and MCQParser, keyed on
the lower-cased trimmed question) returns exactly the subsequence that
keeps the first candidate of each key and drops every later candidate with
the same key regardless of its options: it equals the keep-first-by-key
function, is a sublist of its input (discovery order preserved), and no two
survivors share a normalized question string. -/
theorem c3_deduplicate (le : List MCQExtractor.EMcq) (lp : List MCQParser.PMcq) :
    (deduplicate (fun m => jsClean m.question) le =
        keepFirstByKey (fun m => jsClean m.question) le ∧
      (deduplicate (fun m => jsClean m.question) le).Sublist le ∧
      (deduplicate (fun m => jsClean m.question) le).Pairwise
        (fun a b => jsClean a.question ≠ jsClean b.question)) ∧
    (deduplicate (fun m => jsClean m.question) lp =
        keepFirstByKey (fun m => jsClean m.question) lp ∧
      (deduplicate (fun m => jsClean m.question) lp).Sublist lp ∧
      (deduplicate (fun m => jsClean m.question) lp).Pairwise
        (fun a b => jsClean a.question ≠ jsClean b.question)) := by
  have h1 := deduplicate_eq_keepFirst (fun m : MCQExtractor.EMcq => jsClean m.question) le
  have h2 := deduplicate_eq_keepFirst (fun m : MCQParser.PMcq => jsClean m.question) lp
  refine ⟨⟨h1, ?_, ?_⟩, ⟨h2, ?_, ?_⟩⟩
  · rw [h1]; exact keepFirst_sublist_aux _ le.length le le_rfl
  · rw [h1]; exact keepFirst_pairwise_aux _ le.length le le_rfl
  · rw [h2]; exact keepFirst_sublist_aux _ lp.length lp le_rfl
  · rw [h2]; exact keepFirst_pairwise_aux _ lp.length lp le_rfl

/-! ## Claim C8 (strategy failure isolation) -/

theorem strategyFold_go {α : Type} :
    ∀ (rs : List (Except String (List α))) (acc : List α),
      rs.foldl strategyStep acc =
        acc ++ (rs.map (fun r => match r with
          | Except.ok l => l
          | Except.error _ => [])).flatten := by
  intro rs
  induction rs with
  | nil => intro acc; simp
  | cons r rs ih =>
    intro acc
    rw [List.foldl_cons, ih]
    cases r with
    | ok l =>
      by_cases hl : l.length > 0
      · simp [strategyStep, hl, List.append_assoc]
      · have hnil : l = [] := by cases l <;> simp_all
        subst hnil
        simp [strategyStep]
    | error e => simp [strategyStep]

/-- C8: in the strategy loop shared by `MCQExtractor.extractAll` and
`MCQParser.parse`, a strategy outcome that is a thrown error is absorbed at
the loop boundary and contributes exactly as many candidates as a strategy
returning the empty list — zero; the loop always returns the concatenation
of the successful strategies' candidate lists (which `extractAll`/`parse`
then deduplicate), and never propagates the error. -/
theorem c8_strategy_isolation {α : Type} (pre post rs : List (Except String (List α)))
    (e : String) :
    strategyFold (pre ++ Except.error e :: post) =
      strategyFold (pre ++ Except.ok [] :: post) ∧
    strategyFold rs =
      (rs.map (fun r => match r with
        | Except.ok l => l
        | Except.error _ => [])).flatten := by
  constructor
  · unfold strategyFold
    rw [strategyFold_go, strategyFold_go]
    simp
  · unfold strategyFold
    rw [strategyFold_go]
    simp

/-! ## Claim C4 (fuzzy tier) -/

theorem fuzzyStep_lemma (ca : List Char) :
    ∀ (l : List Highlighter.HOption) (bo : Highlighter.HOption) (bs : Nat),
      bs = Highlighter.fuzzyDist ca bo →
      ∃ ro rs, l.foldl (Highlighter.fuzzyStep ca) (some (bo, bs)) = some (ro, rs) ∧
        rs = Highlighter.fuzzyDist ca ro ∧
        (ro = bo ∨ ro ∈ l) ∧ rs ≤ bs ∧ ∀ o ∈ l, rs ≤ Highlighter.fuzzyDist ca o := by
  intro l
  induction l with
  | nil =>
    intro bo bs hbs
    exact ⟨bo, bs, rfl, hbs, Or.inl rfl, le_rfl, by intro o ho; cases ho⟩
  | cons o l ih =>
    intro bo bs hbs
    rw [List.foldl_cons]
    by_cases hd : Highlighter.fuzzyDist ca o < bs
    · have hstep : Highlighter.fuzzyStep ca (some (bo, bs)) o =
          if Highlighter.fuzzyDist ca o < bs then some (o, Highlighter.fuzzyDist ca o)
          else some (bo, bs) := rfl
      rw [hstep, if_pos hd]
      obtain ⟨ro, rs, h1, h2, h3, h4, h5⟩ := ih o (Highlighter.fuzzyDist ca o) rfl
      refine ⟨ro, rs, h1, h2, ?_, ?_, ?_⟩
      · rcases h3 with rfl | h3
        · exact Or.inr (List.mem_cons_self _ _)
        · exact Or.inr (List.mem_cons_of_mem _ h3)
      · omega
      · intro o' ho'
        rcases List.mem_cons.mp ho' with rfl | ho'
        · exact h4
        · exact h5 o' ho'
    · have hstep : Highlighter.fuzzyStep ca (some (bo, bs)) o =
          if Highlighter.fuzzyDist ca o < bs then some (o, Highlighter.fuzzyDist ca o)
          else some (bo, bs) := rfl
      rw [hstep, if_neg hd]
      obtain ⟨ro, rs, h1, h2, h3, h4, h5⟩ := ih bo bs hbs
      refine ⟨ro, rs, h1, h2, ?_, h4, ?_⟩
      · rcases h3 with rfl | h3
        · exact Or.inl rfl
        · exact Or.inr (List.mem_cons_of_mem _ h3)
      · intro o' ho'
        rcases List.mem_cons.mp ho' with rfl | ho'
        · omega
        · exact h5 o' ho'

theorem fuzzyScan_spec (ca : List Char) (options : List Highlighter.HOption)
    (h : options ≠ []) :
    ∃ bo bs, Highlighter.fuzzyScan ca options = some (bo, bs) ∧ bo ∈ options ∧
      bs = Highlighter.fuzzyDist ca bo ∧
      ∀ o ∈ options, bs ≤ Highlighter.fuzzyDist ca o := by
  cases options with
  | nil => exact absurd rfl h
  | cons o l =>
    unfold Highlighter.fuzzyScan
    rw [List.foldl_cons]
    rw [show Highlighter.fuzzyStep ca none o = some (o, Highlighter.fuzzyDist ca o) from rfl]
    obtain ⟨ro, rs, h1, h2, h3, h4, h5⟩ := fuzzyStep_lemma ca l o _ rfl
    refine ⟨ro, rs, h1, ?_, h2, ?_⟩
    · rcases h3 with rfl | h3
      · exact List.mem_cons_self _ _
      · exact List.mem_cons_of_mem _ h3
    · intro o' ho'
      rcases List.mem_cons.mp ho' with rfl | ho'
      · exact h4
      · exact h5 o' ho'

/-- C4: for every non-empty option list and every answer that reaches the
fuzzy tier (exact, substring and letter tiers all fail), the resolver
computes the classic unit-cost insert/delete/substitute edit distance
between the normalized answer and each option's normalized text, picks an
option attaining the minimum distance, and accepts it precisely when
`minDistance < 0.4 * max(len(cleanAnswer), len(bestOption.text))`
(modelled exactly as `5 * minDistance < 2 * max`); otherwise it reports no
match. -/
theorem c4_fuzzy_tier (options : List Highlighter.HOption) (answer : String)
    (hne : options ≠ [])
    (hex : Highlighter.exactTier options (jsClean answer) = none)
    (hsub : Highlighter.substringTier options (jsClean answer) = none)
    (hlet : Highlighter.letterTier options answer = none) :
    ∃ bo bs, bo ∈ options ∧
      bs = editDistance (jsClean answer).data (jsClean bo.text).data ∧
      (∀ o ∈ options, bs ≤ editDistance (jsClean answer).data (jsClean o.text).data) ∧
      Highlighter.findMatchingOptionM options answer =
        (if 5 * bs < 2 * max (jsClean answer).length bo.text.length
         then some (bo, Highlighter.Method.fuzzy) else none) := by
  obtain ⟨bo, bs, h1, h2, h3, h4⟩ := fuzzyScan_spec (jsClean answer).data options hne
  have hdist : ∀ o : Highlighter.HOption,
      Highlighter.fuzzyDist (jsClean answer).data o =
        editDistance (jsClean answer).data (jsClean o.text).data :=
    fun o => lev_eq_editDistance (jsClean answer).data (jsClean o.text).data
  refine ⟨bo, bs, h2, ?_, ?_, ?_⟩
  · rw [h3, hdist bo]
  · intro o ho
    have := h4 o ho
    rw [hdist o] at this
    exact this
  · simp only [Highlighter.findMatchingOptionM]
    rw [hex, hsub, hlet]
    show Option.map (fun o => (o, Highlighter.Method.fuzzy))
        (Highlighter.fuzzyTier options (jsClean answer)) = _
    unfold Highlighter.fuzzyTier
    rw [h1]
    by_cases hacc : 5 * bs < 2 * max (jsClean answer).length bo.text.length
    · rw [if_pos hacc]
      show Option.map _ (if 5 * bs < 2 * max (jsClean answer).length bo.text.length
        then some bo else none) = _
      rw [if_pos hacc]
      rfl
    · rw [if_neg hacc]
      show Option.map _ (if 5 * bs < 2 * max (jsClean answer).length bo.text.length
        then some bo else none) = _
      rw [if_neg hacc]
      rfl

theorem c4_fuzzy_tier_witness :
    (([⟨"Photosynthesis"⟩] : List Highlighter.HOption) ≠ []) ∧
    Highlighter.exactTier [⟨"Photosynthesis"⟩] (jsClean "Fotosynthesis") = none ∧
    Highlighter.substringTier [⟨"Photosynthesis"⟩] (jsClean "Fotosynthesis") = none ∧
    Highlighter.letterTier [⟨"Photosynthesis"⟩] "Fotosynthesis" = none ∧
    (∃ bo bs, bo ∈ ([⟨"Photosynthesis"⟩] : List Highlighter.HOption) ∧
      bs = editDistance (jsClean "Fotosynthesis").data (jsClean bo.text).data ∧
      (∀ o ∈ ([⟨"Photosynthesis"⟩] : List Highlighter.HOption),
        bs ≤ editDistance (jsClean "Fotosynthesis").data (jsClean o.text).data) ∧
      Highlighter.findMatchingOptionM [⟨"Photosynthesis"⟩] "Fotosynthesis" =
        (if 5 * bs < 2 * max (jsClean "Fotosynthesis").length bo.text.length
         then some (bo, Highlighter.Method.fuzzy) else none)) :=
  ⟨by decide, by decide, by decide, by decide,
    c4_fuzzy_tier [⟨"Photosynthesis"⟩] "Fotosynthesis"
      (by decide) (by decide) (by decide) (by decide)⟩

/-! ## Claim C6 (option-prefix stripping) -/

theorem takeWhile_all (p : Char → Bool) (l : List Char) :
    (l.takeWhile p).all p = true := by
  rw [List.all_eq_true]
  intro a ha
  exact List.mem_takeWhile_imp ha

theorem takeWhile_length_drop (p : Char → Bool) :
    ∀ l : List Char, l = l.takeWhile p ++ l.drop (l.takeWhile p).length := by
  intro l
  induction l with
  | nil => rfl
  | cons c cs ih =>
    rw [List.takeWhile_cons]
    by_cases h : p c
    · rw [if_pos h]
      simp only [List.length_cons, List.drop_succ_cons, List.cons_append]
      exact congrArg (c :: ·) ih
    · rw [if_neg h]
      rfl

theorem takeWhile_append_eq (p : Char → Bool) :
    ∀ (ds rest : List Char), ds.all p = true →
      (∀ c, rest.head? = some c → p c = false) →
      (ds ++ rest).takeWhile p = ds := by
  intro ds
  induction ds with
  | nil =>
    intro rest _ hh
    cases rest with
    | nil => rfl
    | cons r rs =>
      rw [List.nil_append, List.takeWhile_cons, if_neg]
      simp [hh r rfl]
  | cons d ds ih =>
    intro rest hall hh
    simp only [List.all_cons, Bool.and_eq_true] at hall
    rw [List.cons_append, List.takeWhile_cons, if_pos (by simp [hall.1])]
    exact congrArg (d :: ·) (ih rest hall.2 hh)

theorem sep_not_digit (c : Char) (h : Highlighter.sepChar c = true) :
    isDigitChar c = false := by
  simp only [Highlighter.sepChar, isWsChar, decide_eq_true_eq] at h
  rcases h with h | h | h | (h | h | h | h | h | h) <;> subst h <;> decide

theorem stripLetterMark_spec (l : List Char) :
    ∃ m, l = m ++ MCQParser.stripLetterMark l ∧ (m = [] ∨ letterMarker m = true) := by
  cases l with
  | nil => exact ⟨[], rfl, Or.inl rfl⟩
  | cons c rest =>
    have hred : MCQParser.stripLetterMark (c :: rest) =
        if (isAsciiLetter c && !(rest.takeWhile Highlighter.sepChar).isEmpty) = true
        then rest.dropWhile Highlighter.sepChar else c :: rest := rfl
    rw [hred]
    by_cases hc : (isAsciiLetter c && !(rest.takeWhile Highlighter.sepChar).isEmpty) = true
    · rw [if_pos hc]
      refine ⟨c :: rest.takeWhile Highlighter.sepChar, ?_, Or.inr ?_⟩
      · rw [List.cons_append, List.takeWhile_append_dropWhile]
      · simp only [Bool.and_eq_true] at hc
        show (isAsciiLetter c && allSepRun (rest.takeWhile Highlighter.sepChar)) = true
        simp only [allSepRun, Bool.and_eq_true]
        exact ⟨hc.1, hc.2, takeWhile_all _ _⟩
    · rw [if_neg hc]
      exact ⟨[], rfl, Or.inl rfl⟩

theorem stripDigitsMark_spec (l : List Char) :
    ∃ m, l = m ++ MCQParser.stripDigitsMark l ∧ (m = [] ∨ digitsMarker m = true) := by
  unfold MCQParser.stripDigitsMark
  by_cases hds : (l.takeWhile isDigitChar).isEmpty = true
  · rw [if_pos hds]
    exact ⟨[], rfl, Or.inl rfl⟩
  · rw [if_neg hds]
    by_cases hsep : ((l.drop (l.takeWhile isDigitChar).length).takeWhile
        Highlighter.sepChar).isEmpty = true
    · rw [if_pos hsep]
      exact ⟨[], rfl, Or.inl rfl⟩
    · rw [if_neg hsep]
      set ds := l.takeWhile isDigitChar with hds_def
      set rest := l.drop ds.length with hrest_def
      refine ⟨ds ++ rest.takeWhile Highlighter.sepChar, ?_, Or.inr ?_⟩
      · rw [List.append_assoc, List.takeWhile_append_dropWhile]
        rw [hds_def, hrest_def]
        exact takeWhile_length_drop isDigitChar l
      · simp only [digitsMarker]
        have htw : ((ds ++ rest.takeWhile Highlighter.sepChar).takeWhile isDigitChar) = ds := by
          apply takeWhile_append_eq
          · exact takeWhile_all _ _
          · intro c hc
            apply sep_not_digit
            cases hsw : rest.takeWhile Highlighter.sepChar with
            | nil => rw [hsw] at hc; cases hc
            | cons x xs =>
              rw [hsw] at hc
              simp only [List.head?_cons, Option.some.injEq] at hc
              have hx : x ∈ rest.takeWhile Highlighter.sepChar := by
                rw [hsw]; exact List.mem_cons_self _ _
              have hsx := List.mem_takeWhile_imp hx
              rw [hc] at hsx
              exact hsx
        rw [htw]
        simp only [Bool.and_eq_true]
        refine ⟨by simpa using hds, ?_⟩
        rw [List.drop_left]
        simp only [allSepRun, Bool.and_eq_true]
        exact ⟨by simpa using hsep, takeWhile_all _ _⟩

theorem stripParenLetter_spec (l : List Char) :
    ∃ m, l = m ++ MCQParser.stripParenLetter l ∧ (m = [] ∨ parenLetterMarker m = true) := by
  unfold MCQParser.stripParenLetter
  split
  · rename_i c rest
    by_cases hc : isAsciiLetter c = true
    · rw [if_pos hc]
      refine ⟨'(' :: c :: ')' :: rest.takeWhile isWsChar, ?_, Or.inr ?_⟩
      · simp only [List.cons_append]
        rw [List.takeWhile_append_dropWhile]
      · show (isAsciiLetter c && (rest.takeWhile isWsChar).all isWsChar) = true
        simp only [Bool.and_eq_true]
        exact ⟨hc, takeWhile_all _ _⟩
    · rw [if_neg hc]
      exact ⟨[], rfl, Or.inl rfl⟩
  · exact ⟨[], rfl, Or.inl rfl⟩

theorem stripParenDigit_spec (l : List Char) :
    ∃ m, l = m ++ MCQParser.stripParenDigit l ∧ (m = [] ∨ parenDigitMarker m = true) := by
  unfold MCQParser.stripParenDigit
  split
  · rename_i rest
    by_cases hds : (rest.takeWhile isDigitChar).isEmpty = true
    · rw [if_pos hds]
      exact ⟨[], rfl, Or.inl rfl⟩
    · rw [if_neg hds]
      split
      · rename_i r hr
        refine ⟨'(' :: rest.takeWhile isDigitChar ++ ')' :: r.takeWhile isWsChar,
          ?_, Or.inr ?_⟩
        · have h1 : rest = rest.takeWhile isDigitChar ++ (')' :: r) := by
            rw [← hr]
            exact takeWhile_length_drop isDigitChar rest
          have h2 : (')' :: r.takeWhile isWsChar) ++ r.dropWhile isWsChar = ')' :: r := by
            rw [List.cons_append, List.takeWhile_append_dropWhile]
          show ('(' : Char) :: rest =
            ('(' :: (rest.takeWhile isDigitChar ++ ')' :: r.takeWhile isWsChar)) ++
              r.dropWhile isWsChar
          rw [List.cons_append, List.append_assoc, h2, ← h1]
        · have htw : ((rest.takeWhile isDigitChar ++ ')' :: r.takeWhile isWsChar).takeWhile
              isDigitChar) = rest.takeWhile isDigitChar := by
            apply takeWhile_append_eq
            · exact takeWhile_all _ _
            · intro c hc
              simp only [List.head?_cons, Option.some.injEq] at hc
              subst hc
              decide
          show (!((('(' :: rest.takeWhile isDigitChar ++ ')' :: r.takeWhile isWsChar).tail).takeWhile
              isDigitChar).isEmpty &&
            (match (('(' :: rest.takeWhile isDigitChar ++ ')' :: r.takeWhile isWsChar).tail).drop
                ((('(' :: rest.takeWhile isDigitChar ++ ')' :: r.takeWhile isWsChar).tail).takeWhile
                  isDigitChar).length with
              | ')' :: ws => ws.all isWsChar
              | _ => false)) = true
          show (!((rest.takeWhile isDigitChar ++ ')' :: r.takeWhile isWsChar).takeWhile
              isDigitChar).isEmpty &&
            (match (rest.takeWhile isDigitChar ++ ')' :: r.takeWhile isWsChar).drop
                ((rest.takeWhile isDigitChar ++ ')' :: r.takeWhile isWsChar).takeWhile
                  isDigitChar).length with
              | ')' :: ws => ws.all isWsChar
              | _ => false)) = true
          rw [htw, List.drop_left]
          simp only [Bool.and_eq_true]
          refine ⟨by simpa using hds, ?_⟩
          exact takeWhile_all _ _
      · exact ⟨[], rfl, Or.inl rfl⟩
  · exact ⟨[], rfl, Or.inl rfl⟩

/-- C6 counterexample: `cleanOption`/`cleanOptionText` on `"A) 1) Paris"`
strip two leading markers (first the letter marker `A) `, then the digit
marker `1) ` exposed by the first removal) and return `"Paris"`, whereas at
most one leading-marker removal (or returning the input unchanged) can only
produce `"A) 1) Paris"`, `" 1) Paris"` or `"1) Paris"` — never `"Paris"`:
no split of the input into one optional marker plus remainder yields the
actual output. -/
theorem c6_counterexample :
    MCQParser.cleanOption "A) 1) Paris" = "Paris" ∧
    MCQExtractor.cleanOptionText "A) 1) Paris" = "Paris" ∧
    (List.range ("A) 1) Paris".data.length + 1)).all
      (fun k => !((k == 0 || isOptionMarker ("A) 1) Paris".data.take k)) &&
        "A) 1) Paris".data.drop k == "Paris".data)) = true := by decide

/-- C6 (amended): `cleanOption` applies its four prefix patterns (letter,
digit, parenthesised letter, parenthesised digit) sequentially, each at
most once and each to the result of the previous one — so up to four
leading markers can be removed, a later pattern matching a prefix exposed
by an earlier removal — and finally trims the result; `cleanOptionText`
does the same with the first two patterns.  When no pattern matches, the
result is the trimmed input. -/
theorem c6_sequential_strip (s : String) :
    (∃ m1 m2 m3 m4 r, s.data = m1 ++ (m2 ++ (m3 ++ (m4 ++ r))) ∧
      MCQParser.cleanOption s = ⟨trimChars r⟩ ∧
      (m1 = [] ∨ letterMarker m1 = true) ∧ (m2 = [] ∨ digitsMarker m2 = true) ∧
      (m3 = [] ∨ parenLetterMarker m3 = true) ∧ (m4 = [] ∨ parenDigitMarker m4 = true)) ∧
    (∃ m1 m2 r, s.data = m1 ++ (m2 ++ r) ∧
      MCQExtractor.cleanOptionText s = ⟨trimChars r⟩ ∧
      (m1 = [] ∨ letterMarker m1 = true) ∧ (m2 = [] ∨ digitsMarker m2 = true)) := by
  obtain ⟨m1, h1, hm1⟩ := stripLetterMark_spec s.data
  obtain ⟨m2, h2, hm2⟩ := stripDigitsMark_spec (MCQParser.stripLetterMark s.data)
  obtain ⟨m3, h3, hm3⟩ :=
    stripParenLetter_spec (MCQParser.stripDigitsMark (MCQParser.stripLetterMark s.data))
  obtain ⟨m4, h4, hm4⟩ := stripParenDigit_spec
    (MCQParser.stripParenLetter (MCQParser.stripDigitsMark (MCQParser.stripLetterMark s.data)))
  constructor
  · refine ⟨m1, m2, m3, m4,
      MCQParser.stripParenDigit (MCQParser.stripParenLetter
        (MCQParser.stripDigitsMark (MCQParser.stripLetterMark s.data))),
      ?_, rfl, hm1, hm2, hm3, hm4⟩
    exact h1.trans (congrArg (m1 ++ ·)
      (h2.trans (congrArg (m2 ++ ·)
        (h3.trans (congrArg (m3 ++ ·) h4)))))
  · refine ⟨m1, m2,
      MCQParser.stripDigitsMark (MCQParser.stripLetterMark s.data),
      ?_, rfl, hm1, hm2⟩
    exact h1.trans (congrArg (m1 ++ ·) h2)

/-! ## Claim C2 (option-count bounds) -/

theorem mem_of_mem_dedupGo {α : Type} (key : α → String) :
    ∀ (l : List α) (seen : List String) (m : α), m ∈ dedupGo key seen l → m ∈ l := by
  intro l
  induction l with
  | nil => intro seen m hm; simp [dedupGo] at hm
  | cons x xs ih =>
    intro seen m hm
    rw [dedupGo] at hm
    by_cases hx : key x ∈ seen
    · rw [if_pos hx] at hm
      exact List.mem_cons_of_mem _ (ih seen m hm)
    · rw [if_neg hx] at hm
      rcases List.mem_cons.mp hm with h | h
      · exact h ▸ List.mem_cons_self _ _
      · exact List.mem_cons_of_mem _ (ih _ m h)

theorem radioGroupToMcq_bound (root : Dom) (g : String × List (DPath × Dom))
    (m : MCQExtractor.EMcq) (h : MCQExtractor.radioGroupToMcq root g = some m) :
    2 ≤ m.options.length := by
  unfold MCQExtractor.radioGroupToMcq at h
  split at h
  · exact absurd h (by simp)
  · split at h
    · simp only at h
      split at h
      · rename_i hlen
        injection h with h
        subst h
        simp only [List.length_map] at hlen ⊢
        omega
      · exact absurd h (by simp)
    · exact absurd h (by simp)

theorem listToMcq_bound (root : Dom) (lp : DPath × Dom)
    (m : MCQExtractor.EMcq) (h : MCQExtractor.listToMcq root lp = some m) :
    2 ≤ m.options.length := by
  unfold MCQExtractor.listToMcq at h
  simp only at h
  split at h
  · split at h
    · rename_i hlen
      split at h
      · injection h with h
        subst h
        simp only [List.length_map]
        omega
      · exact absurd h (by simp)
    · exact absurd h (by simp)
  · exact absurd h (by simp)

theorem divQuestionToMcq_bound (root : Dom) (qp : DPath × Dom)
    (m : MCQExtractor.EMcq) (h : MCQExtractor.divQuestionToMcq root qp = some m) :
    2 ≤ m.options.length := by
  unfold MCQExtractor.divQuestionToMcq at h
  simp only at h
  split at h
  · rename_i hlen
    injection h with h
    subst h
    simp only [List.length_map]
    omega
  · exact absurd h (by simp)

theorem tableToMcq_bound (root : Dom) (tp : DPath × Dom)
    (m : MCQExtractor.EMcq) (h : MCQExtractor.tableToMcq root tp = some m) :
    2 ≤ m.options.length := by
  unfold MCQExtractor.tableToMcq at h
  simp only at h
  split at h
  · split at h
    · split at h
      · rename_i hlen
        injection h with h
        subst h
        simp only [List.length_map]
        omega
      · exact absurd h (by simp)
    · exact absurd h (by simp)
  · exact absurd h (by simp)

theorem platformToMcq_bound (root : Dom) (qPred oPred : Dom → Bool) (qtype : String)
    (qp : DPath × Dom) (m : MCQExtractor.EMcq)
    (h : MCQExtractor.platformToMcq root qPred oPred qtype qp = some m) :
    2 ≤ m.options.length := by
  unfold MCQExtractor.platformToMcq at h
  simp only at h
  split at h
  · split at h
    · rename_i hlen
      injection h with h
      subst h
      simp only [List.length_map]
      omega
    · exact absurd h (by simp)
  · exact absurd h (by simp)

theorem extractFromRadioButtons_bound (root : Dom) (m : MCQExtractor.EMcq)
    (h : m ∈ MCQExtractor.extractFromRadioButtons root) : 2 ≤ m.options.length := by
  unfold MCQExtractor.extractFromRadioButtons at h
  obtain ⟨g, _, hg⟩ := List.mem_filterMap.mp h
  exact radioGroupToMcq_bound root g m hg

theorem extractFromLists_bound (root : Dom) (m : MCQExtractor.EMcq)
    (h : m ∈ MCQExtractor.extractFromLists root) : 2 ≤ m.options.length := by
  unfold MCQExtractor.extractFromLists at h
  obtain ⟨lp, _, hg⟩ := List.mem_filterMap.mp h
  exact listToMcq_bound root lp m hg

theorem extractFromDivStructure_bound (root : Dom) (m : MCQExtractor.EMcq)
    (h : m ∈ MCQExtractor.extractFromDivStructure root) : 2 ≤ m.options.length := by
  unfold MCQExtractor.extractFromDivStructure at h
  obtain ⟨l, hl, hm⟩ := List.mem_flatten.mp h
  obtain ⟨sel, _, hsel⟩ := List.mem_map.mp hl
  subst hsel
  obtain ⟨qp, _, hg⟩ := List.mem_filterMap.mp hm
  exact divQuestionToMcq_bound root qp m hg

theorem extractFromTableFormat_bound (root : Dom) (m : MCQExtractor.EMcq)
    (h : m ∈ MCQExtractor.extractFromTableFormat root) : 2 ≤ m.options.length := by
  unfold MCQExtractor.extractFromTableFormat at h
  obtain ⟨tp, _, hg⟩ := List.mem_filterMap.mp h
  exact tableToMcq_bound root tp m hg

theorem extractFromCommonPlatforms_bound (doc : MCQExtractor.Document)
    (m : MCQExtractor.EMcq) (h : m ∈ MCQExtractor.extractFromCommonPlatforms doc) :
    2 ≤ m.options.length := by
  unfold MCQExtractor.extractFromCommonPlatforms at h
  split_ifs at h
  · unfold MCQExtractor.extractFromGoogleForms at h
    obtain ⟨qp, _, hg⟩ := List.mem_filterMap.mp h
    exact platformToMcq_bound _ _ _ _ qp m hg
  · unfold MCQExtractor.extractFromQuizlet at h
    obtain ⟨qp, _, hg⟩ := List.mem_filterMap.mp h
    exact platformToMcq_bound _ _ _ _ qp m hg
  · unfold MCQExtractor.extractFromCanvas at h
    obtain ⟨qp, _, hg⟩ := List.mem_filterMap.mp h
    exact platformToMcq_bound _ _ _ _ qp m hg
  · exact absurd h (by simp)

theorem extractAll_bound (doc : MCQExtractor.Document) (m : MCQExtractor.EMcq)
    (h : m ∈ MCQExtractor.extractAll doc) : 2 ≤ m.options.length := by
  unfold MCQExtractor.extractAll deduplicate at h
  have h2 := mem_of_mem_dedupGo _ _ _ _ h
  have hsf : strategyFold
      [Except.ok (MCQExtractor.extractFromRadioButtons doc.root),
       Except.ok (MCQExtractor.extractFromLists doc.root),
       Except.ok (MCQExtractor.extractFromDivStructure doc.root),
       Except.ok (MCQExtractor.extractFromTableFormat doc.root),
       Except.ok (MCQExtractor.extractFromCommonPlatforms doc)] =
      MCQExtractor.extractFromRadioButtons doc.root ++
        (MCQExtractor.extractFromLists doc.root ++
          (MCQExtractor.extractFromDivStructure doc.root ++
            (MCQExtractor.extractFromTableFormat doc.root ++
              (MCQExtractor.extractFromCommonPlatforms doc ++ [])))) := by
    unfold strategyFold
    rw [strategyFold_go]
    rfl
  rw [hsf] at h2
  simp only [List.mem_append, List.append_nil] at h2
  rcases h2 with h2 | h2 | h2 | h2 | h2
  · exact extractFromRadioButtons_bound _ m h2
  · exact extractFromLists_bound _ m h2
  · exact extractFromDivStructure_bound _ m h2
  · exact extractFromTableFormat_bound _ m h2
  · exact extractFromCommonPlatforms_bound _ m h2

theorem parseQuestionBlock_bounds (b : String) (m : MCQParser.PMcq)
    (h : MCQParser.parseQuestionBlock b = some m) :
    2 ≤ m.options.length ∧ m.options.length ≤ 6 := by
  unfold MCQParser.parseQuestionBlock at h
  simp only at h
  split at h
  · exact absurd h (by simp)
  · split at h
    · exact absurd h (by simp)
    · split at h
      · exact absurd h (by simp)
      · split at h
        · exact absurd h (by simp)
        · rename_i hlen
          injection h with h
          subst h
          simp only [not_or, Nat.not_lt] at hlen
          exact ⟨hlen.1, hlen.2⟩

theorem parseNumberedQuestions_bounds (text : String) (m : MCQParser.PMcq)
    (h : m ∈ MCQParser.parseNumberedQuestions text) :
    2 ≤ m.options.length ∧ m.options.length ≤ 6 := by
  unfold MCQParser.parseNumberedQuestions at h
  obtain ⟨p, _, hp⟩ := List.mem_filterMap.mp h
  obtain ⟨a, ha, hm⟩ := Option.map_eq_some'.mp hp
  have hb := parseQuestionBlock_bounds _ a ha
  have hopt : m.options = a.options := by rw [hm.symm]
  rw [hopt]
  exact hb

theorem parseQPrefixedQuestions_bounds (text : String) (m : MCQParser.PMcq)
    (h : m ∈ MCQParser.parseQPrefixedQuestions text) :
    2 ≤ m.options.length ∧ m.options.length ≤ 6 := by
  unfold MCQParser.parseQPrefixedQuestions at h
  obtain ⟨p, _, hp⟩ := List.mem_filterMap.mp h
  obtain ⟨a, ha, hm⟩ := Option.map_eq_some'.mp hp
  have hb := parseQuestionBlock_bounds _ a ha
  have hopt : m.options = a.options := by rw [hm.symm]
  rw [hopt]
  exact hb

theorem parseBlockQuestions_bounds (text : String) (m : MCQParser.PMcq)
    (h : m ∈ MCQParser.parseBlockQuestions text) :
    2 ≤ m.options.length ∧ m.options.length ≤ 6 := by
  unfold MCQParser.parseBlockQuestions at h
  obtain ⟨b, _, hb⟩ := List.mem_filterMap.mp h
  split at hb
  · exact parseQuestionBlock_bounds _ m hb
  · exact absurd hb (by simp)

theorem parse_bounds (text : String) (m : MCQParser.PMcq)
    (h : m ∈ MCQParser.parse text) :
    2 ≤ m.options.length ∧ m.options.length ≤ 6 := by
  unfold MCQParser.parse at h
  split at h
  · exact absurd h (by simp)
  · unfold deduplicate at h
    have h2 := mem_of_mem_dedupGo _ _ _ _ h
    have hsf : strategyFold
        [Except.ok (MCQParser.parseNumberedQuestions text),
         Except.ok (MCQParser.parseQPrefixedQuestions text),
         Except.ok (MCQParser.parseBlockQuestions text)] =
        MCQParser.parseNumberedQuestions text ++
          (MCQParser.parseQPrefixedQuestions text ++
            (MCQParser.parseBlockQuestions text ++ [])) := by
      unfold strategyFold
      rw [strategyFold_go]
      rfl
    rw [hsf] at h2
    simp only [List.mem_append, List.append_nil] at h2
    rcases h2 with h2 | h2 | h2
    · exact parseNumberedQuestions_bounds text m h2
    · exact parseQPrefixedQuestions_bounds text m h2
    · exact parseBlockQuestions_bounds text m h2

/-- C2 counterexample: the upper bound `options.length ≤ 6` fails for
`MCQExtractor.extractAll` — on a page with one radio group of seven radio
buttons, `extractFromRadioButtons` emits the question with all seven
options, because its guard (like those of the platform extractors) only
checks `options.length > 1` and has no upper bound. -/
theorem c2_counterexample :
    (MCQExtractor.extractAll Fixtures.sevenRadioDoc).map
      (fun m => m.options.length) = [7] := by decide

/-- C2 (amended): every MCQ emitted by `MCQExtractor.extractAll` has at
least 2 options — every strategy guards emission with `options.length > 1`
or `2 ≤ options.length` — but only some strategies enforce the upper bound
of 6 (lists, div structure, tables), so no upper bound holds for
`extractAll` as a whole.  For `MCQParser.parse` the full claimed invariant
`2 ≤ options.length ≤ 6` does hold, since all three text strategies go
through `parseQuestionBlock`, which rejects blocks with fewer than 2 or
more than 6 surviving options. -/
theorem c2_option_bounds (doc : MCQExtractor.Document) (text : String) :
    (∀ m ∈ MCQExtractor.extractAll doc, 2 ≤ m.options.length) ∧
    (∀ m ∈ MCQParser.parse text, 2 ≤ m.options.length ∧ m.options.length ≤ 6) :=
  ⟨fun m hm => extractAll_bound doc m hm, fun m hm => parse_bounds text m hm⟩

/-- Witness for `c2_option_bounds` at concrete inputs: the seven-radio page
and the numbered OCR text, with membership of the concrete extracted MCQs
discharged by evaluation. -/
theorem c2_option_bounds_witness :
    2 ≤ Fixtures.sevenMcq.options.length ∧
    (2 ≤ Fixtures.numberedMcq.options.length ∧
      Fixtures.numberedMcq.options.length ≤ 6) :=
  ⟨(c2_option_bounds Fixtures.sevenRadioDoc Fixtures.numberedText).1
      Fixtures.sevenMcq (by decide),
   (c2_option_bounds Fixtures.sevenRadioDoc Fixtures.numberedText).2
      Fixtures.numberedMcq (by decide)⟩
